import Mathlib

/-!
Verification of the `mood` model/instance buffer, loader and compute primitives.

Shallow embedding of the parts of the `mood` game runtime that the
specification's testable claims are about:

* `src/render/model/mod.rs` — `ModelBuffer`: instance bookkeeping
  (`insert_model_instance` / `remove_model_instance`), `material_array`,
  the per-mesh-part index-width choice of `load_model`.
* `src/render/model/raster.rs` — `Raster`: the per-mesh live instance counts
  maintained by `load_model` / `push_model_instance` /
  `swap_remove_model_instance`.
* `src/render/model/ray_trace.rs` — `RayTrace::build_tlas` / `record`.
* `src/ui/loader.rs` — `read_material` and its per-bitmap lock ordering.
* `src/render/excl_sum.rs` and `src/render/bounding_sphere.rs` — the CPU-side
  orchestration is in the source; the GPU shader bodies are not part of the
  source tree, so those passes are modelled from the specification text.

Machine integers of the source (`usize`, `u32`) are modelled as `Nat`;
floating point data (`f32` positions, quaternions) is modelled exactly over
`ℚ`.  Code paths that panic (out-of-bounds `Vec` indexing, `Option::unwrap`,
`debug_assert!`) are modelled by `Option`-returning functions, `none` meaning
the call faults instead of completing.
-/

namespace Mood

/-! ## Basic data model (`src/render/model/mod.rs`) -/

/-- `MAX_MATERIALS_PER_MODEL` (mod.rs:26). -/
def MAX_MATERIALS_PER_MODEL : Nat := 8

/-- `Material` handle: wraps a material-table index (mod.rs:62). -/
structure Material where
  material_index : Nat
deriving DecidableEq, Repr

/-- `Model` handle: contiguous mesh range start and dense model index
(mod.rs:130). -/
structure Model where
  mesh_idx : Nat
  model_idx : Nat
deriving DecidableEq, Repr

/-- Exact model of a `glam::Quat` (`f32` components modelled over `ℚ`). -/
structure Quat where
  x : ℚ
  y : ℚ
  z : ℚ
  w : ℚ
deriving DecidableEq, Repr

/-- Exact model of a `glam::Vec3`. -/
structure Vec3 where
  x : ℚ
  y : ℚ
  z : ℚ
deriving DecidableEq, Repr

/-- `ModelInstanceData` (mod.rs:644): the per-slot instance record held by the
active technique.  The 8-entry material array is modelled as a `List` of
length `MAX_MATERIALS_PER_MODEL`. -/
structure ModelInstanceData where
  materials : List Material
  model : Model
  rotation : Quat
  translation : Vec3
deriving DecidableEq, Repr

/-- `material_array` (mod.rs:28-50): pads/truncates a caller-provided material
slice to exactly `MAX_MATERIALS_PER_MODEL` entries by chaining endless copies
of the first material and taking the first 8.  The `debug_assert!` on an empty
slice (and the `materials[0]` panic an empty slice would cause) is modelled by
returning `none`. -/
def material_array (materials : List Material) : Option (List Material) :=
  match materials with
  | [] => none
  | m0 :: _ =>
      some ((materials ++ List.replicate MAX_MATERIALS_PER_MODEL m0).take
        MAX_MATERIALS_PER_MODEL)

/-! ## `ModelBuffer::load_model` mesh records (mod.rs:329-479)

Only the CPU-side bookkeeping is embedded: per mesh-part the index width is
chosen from the vertex count, the mesh record is assembled, and the running
geometry length / mesh count advance.  GPU buffer copies carry no further
state. -/

/-- One mesh-part of a `pak::model::ModelBuf`, as consumed by `load_model`:
the base LOD's `u32` index list, the raw vertex byte length, the vertex
stride in bytes and whether the vertex type carries joints/weights data. -/
structure MeshPart where
  indices : List Nat
  vertex_len : Nat
  vertex_stride : Nat
  material : Nat
  has_joints : Bool
deriving DecidableEq, Repr

/-- `vertex_count` as computed in `load_model` (mod.rs:376). -/
def MeshPart.vertex_count (p : MeshPart) : Nat :=
  p.vertex_len / p.vertex_stride

/-- `align_up_u64(val, atom)` (math.rs:12) for a power-of-two `atom`;
`load_model` only uses `atom = 4`.  `(val + atom - 1) & !(atom - 1)` equals
rounding up to the next multiple of `atom`. -/
def align_up (val atom : Nat) : Nat :=
  (val + atom - 1) / atom * atom

/-- The GPU-resident `Mesh` record (mod.rs:88), with the two `MeshFlags` bits
(mod.rs:105-108) broken out as booleans. -/
structure MeshRec where
  index_count : Nat
  index_offset : Nat
  vertex_offset : Nat
  material : Nat
  index_ty_uint32 : Bool
  joints_weights : Bool
  vertex_stride : Nat
deriving DecidableEq, Repr

/-- The per-mesh-part body of the `load_model` loop (mod.rs:352-467): builds
the `Mesh` record written to the mesh buffer and advances
`(geometry_len, mesh_count)`.  `index_shift` is 1 for 16-bit and 2 for 32-bit
indices; offsets are stored in index/float units exactly as in the source. -/
def load_model_step (geometry_len : Nat) (p : MeshPart) : MeshRec × Nat :=
  let index_count := p.indices.length
  let vertex_count := p.vertex_count
  let index_is_u32 : Bool := decide (65535 < vertex_count)
  let index_shift := (if index_is_u32 then 1 else 0) + 1
  let index_len := index_count * 2 ^ index_shift
  let vertex_offset := align_up index_len 4
  let mesh_offset := vertex_offset + p.vertex_len
  let mesh : MeshRec :=
    { index_count := index_count
      index_offset := geometry_len / 2 ^ index_shift
      vertex_offset := (geometry_len + vertex_offset) / 4
      material := p.material
      index_ty_uint32 := index_is_u32
      joints_weights := p.has_joints
      vertex_stride := p.vertex_stride / 4 }
  (mesh, align_up (geometry_len + mesh_offset) 4)

/-- The `load_model` loop over all mesh-parts: returns the mesh records in
order together with the final geometry length. -/
def load_model_meshes (geometry_len : Nat) :
    List MeshPart → List MeshRec × Nat
  | [] => ([], geometry_len)
  | p :: rest =>
      let step := load_model_step geometry_len p
      let next := load_model_meshes step.2 rest
      (step.1 :: next.1, next.2)

/-! ## `ModelBuffer` instance bookkeeping (mod.rs:239-265, 510-521)

`ModelBuffer` keeps `model_instance_id` (a monotonically increasing handle
source), `model_instance_index : HashMap<ModelInstance, usize>`,
`model_instances : Vec<ModelInstance>` (handles by slot) and the active
technique's `model_instances : Vec<ModelInstanceData>` (both `Raster` and
`RayTrace` store the data in a `Vec` that is pushed by
`push_model_instance` and `swap_remove`d by `swap_remove_model_instance`).
The hash map is modelled as an association list with unique keys. -/

/-- Association-list lookup: model of `HashMap` indexing. -/
def alookup {α : Type} : List (Nat × α) → Nat → Option α
  | [], _ => none
  | (k', v) :: rest, k => if k' = k then some v else alookup rest k

/-- Association-list insert/overwrite: model of `HashMap::insert` and of
writing through `get_mut`. -/
def aset {α : Type} : List (Nat × α) → Nat → α → List (Nat × α)
  | [], k, v => [(k, v)]
  | (k', v') :: rest, k, v =>
      if k' = k then (k, v) :: rest else (k', v') :: aset rest k v

/-- Association-list removal: model of `HashMap::remove`. -/
def aremove {α : Type} : List (Nat × α) → Nat → List (Nat × α)
  | [], _ => []
  | (k', v') :: rest, k => if k' = k then rest else (k', v') :: aremove rest k

/-- `Vec::swap_remove(i)`: the last element is moved into slot `i` and the
vector shrinks by one. -/
def swapRemove {α : Type} (l : List α) (i : Nat) : List α :=
  match l.getLast? with
  | none => l
  | some last => (l.set i last).dropLast

/-- The instance-bookkeeping state of `ModelBuffer` (mod.rs:136) together
with the active technique's instance-data vector. -/
structure ModelBufferState where
  model_instance_id : Nat
  model_instance_index : List (Nat × Nat)
  model_instances : List Nat
  technique_instances : List ModelInstanceData
deriving DecidableEq, Repr

/-- A fresh `ModelBuffer` (mod.rs:222-236): no instances. -/
def ModelBufferState.init : ModelBufferState :=
  { model_instance_id := 0
    model_instance_index := []
    model_instances := []
    technique_instances := [] }

/-- `ModelBuffer::insert_model_instance` (mod.rs:239-265): pads the material
slice, mints a fresh handle, maps it to slot `model_instance_index.len()`,
appends the handle, and pushes the instance data onto the technique.
Returns the new state and the handle; faults (`none`) only on an empty
material slice. -/
def insert_model_instance (s : ModelBufferState) (model : Model)
    (materials : List Material) (translation : Vec3) (rotation : Quat) :
    Option (ModelBufferState × Nat) :=
  (material_array materials).map fun mats =>
    let model_instance := s.model_instance_id
    let index := s.model_instance_index.length
    ({ model_instance_id := model_instance + 1
       model_instance_index := aset s.model_instance_index model_instance index
       model_instances := s.model_instances ++ [model_instance]
       technique_instances := s.technique_instances ++
         [{ materials := mats, model := model, rotation := rotation,
            translation := translation }] },
     model_instance)

/-- `ModelBuffer::remove_model_instance` (mod.rs:510-521): removes the handle
from the index map (`unwrap` faults when absent), swap-removes slot `index`
from the technique data and the handle vector (a `Vec` index out of bounds
faults), and — whenever the handle vector is still non-empty — re-reads
`model_instances[index]` (faulting when `index` is out of bounds, which
happens when the removed slot was the last one) and remaps that handle to
`index`. -/
def remove_model_instance (s : ModelBufferState) (model_instance : Nat) :
    Option ModelBufferState :=
  match alookup s.model_instance_index model_instance with
  | none => none
  | some index =>
    let map1 := aremove s.model_instance_index model_instance
    if index < s.technique_instances.length then
      let tech := swapRemove s.technique_instances index
      if index < s.model_instances.length then
        let insts := swapRemove s.model_instances index
        if insts.isEmpty then
          some { s with model_instance_index := map1, model_instances := insts,
                        technique_instances := tech }
        else
          match insts[index]? with
          | none => none
          | some moved =>
              if (alookup map1 moved).isSome then
                some { s with model_instance_index := aset map1 moved index,
                              model_instances := insts,
                              technique_instances := tech }
              else none
      else none
    else none

/-- One gameplay operation against the instance API. -/
inductive MBOp where
  | insert (model : Model) (materials : List Material) (translation : Vec3)
      (rotation : Quat)
  | remove (handle : Nat)
deriving DecidableEq, Repr

/-- One step of the instance API; `none` models a panic. -/
def mbStep (s : ModelBufferState) : MBOp → Option ModelBufferState
  | .insert model materials translation rotation =>
      (insert_model_instance s model materials translation rotation).map Prod.fst
  | .remove h => remove_model_instance s h

/-- Runs a sequence of operations; `none` as soon as any panics. -/
def mbRun (s : ModelBufferState) : List MBOp → Option ModelBufferState
  | [] => some s
  | op :: ops => (mbStep s op).bind fun s' => mbRun s' ops

/-- Specification-side ghost state: the handles that should be live and the
data last written for each. -/
structure GhostState where
  nextId : Nat
  live : List (Nat × ModelInstanceData)
deriving DecidableEq, Repr

/-- What each operation should do to the set of live handles, per the spec:
insert registers the padded data under a fresh handle, remove deletes the
handle. -/
def ghostStep (g : GhostState) : MBOp → GhostState
  | .insert model materials translation rotation =>
      match material_array materials with
      | none => g
      | some mats =>
          { nextId := g.nextId + 1
            live := g.live ++ [(g.nextId,
              { materials := mats, model := model, rotation := rotation,
                translation := translation })] }
  | .remove h => { g with live := aremove g.live h }

/-- Ghost run over a sequence of operations. -/
def ghostRun (g : GhostState) : List MBOp → GhostState
  | [] => g
  | op :: ops => ghostRun (ghostStep g op) ops

/-! ### The instance-lifecycle coupling invariant (C2) -/

/-- Coupling invariant between a `ModelBufferState` and the ghost record of
live handles: the index map, handle vector and technique data vector have
equal cardinality, the map and the handle vector are inverse to each other,
and each slot holds the data last written for its handle. -/
structure MBInv (s : ModelBufferState) (g : GhostState) : Prop where
  id_eq : s.model_instance_id = g.nextId
  map_nodup : (s.model_instance_index.map Prod.fst).Nodup
  live_nodup : (g.live.map Prod.fst).Nodup
  map_len : s.model_instance_index.length = s.model_instances.length
  tech_len : s.technique_instances.length = s.model_instances.length
  map_iff : ∀ (h i : Nat), alookup s.model_instance_index h = some i ↔
    s.model_instances[i]? = some h
  data_eq : ∀ (i h : Nat), s.model_instances[i]? = some h →
    alookup g.live h = s.technique_instances[i]?
  lt_next : ∀ h : Nat, (alookup s.model_instance_index h).isSome → h < g.nextId
  live_sub : ∀ h : Nat, (alookup g.live h).isSome →
    (alookup s.model_instance_index h).isSome

/-! ## `Raster` per-mesh instance bookkeeping (raster.rs:243-358, 690-930)

The `Raster` technique keeps, besides GPU buffers, the CPU-side state that
`load_model`, `push_model_instance` and `swap_remove_model_instance`
maintain: the global mesh count, the flat mesh-instance total, the per-mesh
live-instance counts, the instance data vector, and the per-model mesh
counts.  Dirty bitmaps only steer re-uploads and carry no state these claims
are about. -/
structure RasterState where
  mesh_count : Nat
  mesh_instance_count : Nat
  mesh_instance_counts : List Nat
  model_instances : List ModelInstanceData
  model_mesh_count : List Nat
deriving DecidableEq, Repr

/-- A fresh `Raster` (raster.rs:339-357). -/
def RasterState.init : RasterState :=
  { mesh_count := 0
    mesh_instance_count := 0
    mesh_instance_counts := []
    model_instances := []
    model_mesh_count := [] }

/-- The per-mesh count loops of `push_model_instance` (raster.rs:743-750) and
`swap_remove_model_instance` (raster.rs:924-929): apply `f` (`+= 1` or
`-= 1`) to every entry of `l` with index in `[i, i + c)`, one `Vec` write at
a time. -/
def bumpRange (f : Nat → Nat) : List Nat → Nat → Nat → List Nat
  | l, _, 0 => l
  | l, i, c + 1 => bumpRange f (l.set i (f (l.getD i 0))) (i + 1) c

/-- Whether mesh index `m` lies in the contiguous mesh range of the model
instanced by `d`, given the per-model mesh counts `mmc`. -/
def coversMesh (mmc : List Nat) (d : ModelInstanceData) (m : Nat) : Bool :=
  decide (d.model.mesh_idx ≤ m ∧
    m < d.model.mesh_idx + mmc.getD d.model.model_idx 0)

/-- `Raster::load_model` bookkeeping (raster.rs:712-727): appends the new
model's mesh count, grows the global mesh count, and extends the per-mesh
instance counts with zeros for the new meshes. -/
def raster_load_model (s : RasterState) (geometries_len : Nat) : RasterState :=
  { s with
    model_mesh_count := s.model_mesh_count ++ [geometries_len]
    mesh_count := s.mesh_count + geometries_len
    mesh_instance_counts :=
      s.mesh_instance_counts ++ List.replicate geometries_len 0 }

/-- `Raster::push_model_instance` (raster.rs:730-751): reads the model's mesh
count (a `Vec` index, faulting when out of bounds), pushes the instance data,
adds the mesh count to the flat total, and increments every covered per-mesh
count (each a `Vec` index, faulting when out of bounds). -/
def raster_push_model_instance (s : RasterState) (d : ModelInstanceData) :
    Option RasterState :=
  match s.model_mesh_count[d.model.model_idx]? with
  | none => none
  | some mc =>
      if d.model.mesh_idx + mc ≤ s.mesh_instance_counts.length then
        some { s with
          model_instances := s.model_instances ++ [d]
          mesh_instance_count := s.mesh_instance_count + mc
          mesh_instance_counts :=
            bumpRange (· + 1) s.mesh_instance_counts d.model.mesh_idx mc }
      else none

/-- `Raster::swap_remove_model_instance` (raster.rs:909-930): swap-removes the
instance data at `idx`, subtracts its model's mesh count from the flat total,
and decrements every covered per-mesh count. -/
def raster_swap_remove_model_instance (s : RasterState) (idx : Nat) :
    Option RasterState :=
  match s.model_instances[idx]? with
  | none => none
  | some removed =>
      match s.model_mesh_count[removed.model.model_idx]? with
      | none => none
      | some removed_mc =>
          if removed.model.mesh_idx + removed_mc ≤
              s.mesh_instance_counts.length then
            some { s with
              model_instances := swapRemove s.model_instances idx
              mesh_instance_count := s.mesh_instance_count - removed_mc
              mesh_instance_counts :=
                bumpRange (· - 1) s.mesh_instance_counts
                  removed.model.mesh_idx removed_mc }
          else none

/-- One operation against the `Raster` technique, as `ModelBuffer` drives it:
`load` a model of `g` mesh-parts, `insert` an instance of the `k`-th
previously loaded model, or `remove` the instance at slot `idx`. -/
inductive RasterOp where
  | load (g : Nat)
  | insert (k : Nat) (materials : List Material) (translation : Vec3)
      (rotation : Quat)
  | remove (idx : Nat)
deriving DecidableEq, Repr

/-- One driver step.  `ModelBuffer::load_model` (mod.rs:341-344) mints the
`Model` handle from its own mesh/model counters, which track the `Raster`
counters one-for-one; `insert` pushes an instance of a previously returned
handle. -/
def rasterStep (s : RasterState) (models : List Model) :
    RasterOp → Option (RasterState × List Model)
  | .load g =>
      some (raster_load_model s g,
        models ++ [{ mesh_idx := s.mesh_count,
                     model_idx := s.model_mesh_count.length }])
  | .insert k materials translation rotation =>
      match models[k]? with
      | none => none
      | some model =>
          (raster_push_model_instance s
            { materials := materials, model := model, rotation := rotation,
              translation := translation }).map (fun s' => (s', models))
  | .remove idx =>
      (raster_swap_remove_model_instance s idx).map (fun s' => (s', models))

/-- Runs a sequence of `Raster` operations from a state and the loaded-model
handle list; `none` as soon as any step faults. -/
def rasterRun (s : RasterState) (models : List Model) :
    List RasterOp → Option RasterState
  | [] => some s
  | op :: ops => (rasterStep s models op).bind fun p => rasterRun p.1 p.2 ops

/-- The `Raster` counts invariant (C10) with the bookkeeping facts needed to
push it through every operation. -/
structure RasterInv (s : RasterState) (models : List Model) : Prop where
  counts_len : s.mesh_instance_counts.length = s.mesh_count
  mesh_count_eq : s.mesh_count = s.model_mesh_count.sum
  models_len : models.length = s.model_mesh_count.length
  models_spec : ∀ (k : Nat) (M : Model), models[k]? = some M →
    M.model_idx = k ∧ M.mesh_idx = (s.model_mesh_count.take k).sum
  inst_model : ∀ d ∈ s.model_instances, ∃ k : Nat, models[k]? = some d.model
  total_eq : s.mesh_instance_count = s.mesh_instance_counts.sum
  counts_eq : ∀ m : Nat, m < s.mesh_instance_counts.length →
    s.mesh_instance_counts.getD m 0 =
      s.model_instances.countP (fun d => coversMesh s.model_mesh_count d m)

/-! ## `RayTrace` TLAS construction (ray_trace.rs:245-356, 405-417)

`RayTrace` keeps one BLAS per loaded model (`model_blas`, append-only; each
modelled by its abstract device address) and the instance data vector.
`record` rebuilds the TLAS from the current live instances every call;
each entry carries the first 12 floats of
`Mat4::from_rotation_translation(rotation, translation).transpose()
.to_cols_array()`, the instance slot packed into the low 24 bits of the
custom-index/mask word (mask `0xff`), SBT offset 0 with the
`FORCE_OPAQUE` flag (raw value 4), and the model's BLAS address. -/

/-- `glam::Mat4::from_rotation_translation(q, t).to_cols_array()`: the
column-major 16-float array, with the rotation columns produced by glam's
`Mat3::from_quat` formula. -/
def mat4_from_rotation_translation_cols (q : Quat) (t : Vec3) : List ℚ :=
  let x2 := q.x + q.x
  let y2 := q.y + q.y
  let z2 := q.z + q.z
  let xx := q.x * x2
  let xy := q.x * y2
  let xz := q.x * z2
  let yy := q.y * y2
  let yz := q.y * z2
  let zz := q.z * z2
  let wx := q.w * x2
  let wy := q.w * y2
  let wz := q.w * z2
  [1 - (yy + zz), xy + wz, xz - wy, 0,
   xy - wz, 1 - (xx + zz), yz + wx, 0,
   xz + wy, yz - wx, 1 - (xx + yy), 0,
   t.x, t.y, t.z, 1]

/-- `.transpose().to_cols_array()` of a column-major 16-float array: entry
`4*j + i` of the result is entry `4*i + j` of the input. -/
def transpose_cols (m : List ℚ) : List ℚ :=
  match m with
  | [a0, a1, a2, a3, a4, a5, a6, a7, a8, a9, a10, a11, a12, a13, a14, a15] =>
      [a0, a4, a8, a12, a1, a5, a9, a13, a2, a6, a10, a14, a3, a7, a11, a15]
  | _ => []

/-- The 12-float transform of a TLAS entry (ray_trace.rs:256-264): the first
12 entries of the transposed column array. -/
def tlas_matrix (q : Quat) (t : Vec3) : List ℚ :=
  (transpose_cols (mat4_from_rotation_translation_cols q t)).take 12

/-- `vk::Packed24_8::new(lo, hi)`: `lo` in the low 24 bits, `hi` in the high
8 bits. -/
def packed24_8 (lo hi : Nat) : Nat :=
  lo % 2 ^ 24 + hi % 2 ^ 8 * 2 ^ 24

/-- One `vk::AccelerationStructureInstanceKHR` as filled in `build_tlas`. -/
structure TlasInstance where
  transform : List ℚ
  instance_custom_index_and_mask : Nat
  sbt_offset_and_flags : Nat
  blas_address : Nat
deriving DecidableEq, Repr

/-- The CPU-side state of the `RayTrace` technique (ray_trace.rs:44). -/
structure RayTraceState where
  frame_idx : Nat
  model_blas : List Nat
  model_instances : List ModelInstanceData
deriving DecidableEq, Repr

/-- The `enumerate().map(..).collect()` loop of `RayTrace::build_tlas`
(ray_trace.rs:249-281): one TLAS entry per live model instance in slot
order, numbering slots from `i`; indexing `model_blas[model_idx]` out of
bounds faults. -/
def build_tlas_entries (model_blas : List Nat) :
    Nat → List ModelInstanceData → Option (List TlasInstance)
  | _, [] => some []
  | i, d :: rest =>
      match model_blas[d.model.model_idx]? with
      | none => none
      | some blas =>
          (build_tlas_entries model_blas (i + 1) rest).map
            (fun tail =>
              { transform := tlas_matrix d.rotation d.translation
                instance_custom_index_and_mask := packed24_8 i 0xff
                sbt_offset_and_flags := packed24_8 0 4
                blas_address := blas } :: tail)

/-- `RayTrace::build_tlas` (ray_trace.rs:245-356). -/
def build_tlas (s : RayTraceState) : Option (List TlasInstance) :=
  build_tlas_entries s.model_blas 0 s.model_instances

/-- `RayTrace::record` (ray_trace.rs:405-517): rebuilds the TLAS from the
current instances and advances the wrapping `u32` frame index.  The GPU
dispatch itself carries no further CPU-visible state. -/
def rayTraceRecord (s : RayTraceState) :
    Option (List TlasInstance × RayTraceState) :=
  (build_tlas s).map fun tlas =>
    (tlas, { s with frame_idx := (s.frame_idx + 1) % 2 ^ 32 })

/-- Hamilton product of two quaternions. -/
def qmul (a b : Quat) : Quat :=
  { x := a.w * b.x + a.x * b.w + a.y * b.z - a.z * b.y
    y := a.w * b.y - a.x * b.z + a.y * b.w + a.z * b.x
    z := a.w * b.z + a.x * b.y - a.y * b.x + a.z * b.w
    w := a.w * b.w - a.x * b.x - a.y * b.y - a.z * b.z }

/-- Quaternion conjugate. -/
def qconj (q : Quat) : Quat :=
  { x := -q.x, y := -q.y, z := -q.z, w := q.w }

/-- The rotation action of a (unit) quaternion: `q * v * q⁻¹`. -/
def quat_rotate (q : Quat) (v : Vec3) : Vec3 :=
  let r := qmul (qmul q { x := v.x, y := v.y, z := v.z, w := 0 }) (qconj q)
  { x := r.x, y := r.y, z := r.z }

/-- A quaternion of unit norm. -/
def unit_quat (q : Quat) : Prop :=
  q.x * q.x + q.y * q.y + q.z * q.z + q.w * q.w = 1

/-- The row-major 3x4 `[R | t]` matrix of the rigid transform whose rotation
is the quaternion action and whose translation is `t`: row `r` holds the
`r`-components of the images of the three basis vectors, then `t`'s
`r`-component. -/
def row_major_3x4 (q : Quat) (t : Vec3) : List ℚ :=
  let c0 := quat_rotate q { x := 1, y := 0, z := 0 }
  let c1 := quat_rotate q { x := 0, y := 1, z := 0 }
  let c2 := quat_rotate q { x := 0, y := 0, z := 1 }
  [c0.x, c1.x, c2.x, t.x,
   c0.y, c1.y, c2.y, t.y,
   c0.z, c1.z, c2.z, t.z]

/-! ## Loader: `read_material` and the bitmap-dedup cache (loader.rs:454-546)

`read_image` briefly locks the global cache map (released at the end of the
`entry` statement), then holds the per-bitmap cell lock for the duration of
one decode (taking the `image_loader` lock nested inside it), and releases
it before returning.  `read_material` collects the material's bitmap ids
into a `HashSet`, sorts them ascending, and reads them one at a time — so a
worker never holds two per-bitmap locks at once, and acquires them in
ascending id order.  Decoding through the cache is modelled by the pure map
`decode` from bitmap id to image. -/

/-- A material descriptor as returned by `pak.read_material_id`: the color,
normal and params bitmap ids plus an optional emissive id. -/
structure MaterialInfo where
  color : Nat
  normal : Nat
  params : Nat
  emissive : Option Nat
deriving DecidableEq, Repr

/-- Insert an id into an ascending duplicate-free list, keeping it ascending
and duplicate-free. -/
def insertSortedNodup (a : Nat) : List Nat → List Nat
  | [] => [a]
  | b :: t =>
      if a < b then a :: b :: t
      else if a = b then b :: t
      else b :: insertSortedNodup a t

/-- The deduplicated ascending list of bitmap ids one material needs
(loader.rs:512-524): the `HashSet` of `{color, normal, params} ∪ {emissive}`
drained and `sort_unstable`d. -/
def material_bitmap_ids (info : MaterialInfo) : List Nat :=
  ([info.color, info.normal, info.params] ++ info.emissive.toList).foldr
    insertSortedNodup []

/-- `read_material` (loader.rs:502-546): reads every needed bitmap into the
`images` map, then selects the four returned images.  The source selects
`images[&info.color]` for all three of color, normal and params
(loader.rs:540-542); a missing key (`HashMap` index) faults. -/
def read_material (decode : Nat → Nat) (info : MaterialInfo) :
    Option (Nat × Nat × Nat × Option Nat) :=
  let images := (material_bitmap_ids info).map (fun id => (id, decode id))
  (alookup images info.color).bind fun color =>
    (alookup images info.color).bind fun normal =>
      (alookup images info.color).bind fun params =>
        match info.emissive with
        | none => some (color, normal, params, none)
        | some e =>
            (alookup images e).map fun em => (color, normal, params, some em)

/-- One loader worker in the lock model: the sorted bitmap ids it still has
to read, and the per-bitmap lock it currently holds (at most one, as in
`read_image`). -/
structure LockWorker where
  pending : List Nat
  held : Option Nat
deriving DecidableEq, Repr

/-- Two workers loading materials concurrently. -/
structure LockSystem where
  w1 : LockWorker
  w2 : LockWorker
deriving DecidableEq, Repr

/-- Interleaved execution: a worker may acquire the per-bitmap lock of its
next id whenever the other worker does not hold that lock, and may always
release the lock it holds (finishing that id). -/
inductive LockStep : LockSystem → LockSystem → Prop where
  | acq1 (id : Nat) (rest : List Nat) (w2 : LockWorker)
      (h : w2.held ≠ some id) :
      LockStep ⟨⟨id :: rest, none⟩, w2⟩ ⟨⟨rest, some id⟩, w2⟩
  | rel1 (pending : List Nat) (id : Nat) (w2 : LockWorker) :
      LockStep ⟨⟨pending, some id⟩, w2⟩ ⟨⟨pending, none⟩, w2⟩
  | acq2 (id : Nat) (rest : List Nat) (w1 : LockWorker)
      (h : w1.held ≠ some id) :
      LockStep ⟨w1, ⟨id :: rest, none⟩⟩ ⟨w1, ⟨rest, some id⟩⟩
  | rel2 (pending : List Nat) (id : Nat) (w1 : LockWorker) :
      LockStep ⟨w1, ⟨pending, some id⟩⟩ ⟨w1, ⟨pending, none⟩⟩

/-- Both workers finished their materials and hold no locks. -/
def LockDone (s : LockSystem) : Prop :=
  s.w1.pending = [] ∧ s.w1.held = none ∧ s.w2.pending = [] ∧ s.w2.held = none

instance (s : LockSystem) : Decidable (LockDone s) :=
  inferInstanceAs (Decidable (s.w1.pending = [] ∧ s.w1.held = none ∧
    s.w2.pending = [] ∧ s.w2.held = none))

/-! ## C3: the exclusive-sum GPU primitive (shaders not in `src/`) -/

/-- Modelled from the spec: pass 1 ("reduce") of the exclusive-sum
primitive computes, for every group boundary, the sum of all preceding
size-`S` groups of the input, in 32-bit arithmetic. -/
def excl_sum_reduce (input : Nat → Nat) (S g : Nat) : Nat :=
  (∑ j ∈ Finset.range (S * g), input j) % 2 ^ 32

/-- Modelled from the spec: pass 2 ("scan") combines element `i`'s group's
preceding-groups total with an intra-group exclusive scan (the sum of the
elements of group `i / S` strictly before `i`), in 32-bit arithmetic. -/
def excl_sum_output (input : Nat → Nat) (S i : Nat) : Nat :=
  (excl_sum_reduce input S (i / S) +
    ∑ j ∈ Finset.Ico (S * (i / S)) i, input j) % 2 ^ 32

/-! ## C4: the bounding-sphere GPU primitive (shaders not in `src/`) -/

/-- Modelled from the spec: componentwise sum of two vertex positions. -/
def vadd (a b : Vec3) : Vec3 :=
  ⟨a.x + b.x, a.y + b.y, a.z + b.z⟩

/-- Modelled from the spec: the sum of a run of vertex positions (a
workgroup's partial sum). -/
def vsum (l : List Vec3) : Vec3 :=
  l.foldr vadd ⟨0, 0, 0⟩

/-- Modelled from the spec: split a buffer into workgroups of `S` entries
(the last may be shorter); structural recursion on a fuel bounded by the
list length. -/
def chunksOfAux {α : Type} : Nat → Nat → List α → List (List α)
  | _, _, [] => []
  | 0, _, l => [l]
  | fuel + 1, S, l => l.take S :: chunksOfAux fuel S (l.drop S)

/-- Modelled from the spec: the workgroup partition of a buffer. -/
def chunksOf {α : Type} (S : Nat) (l : List α) : List (List α) :=
  chunksOfAux l.length S l

/-- Modelled from the spec: one "reduce_avg" level — each workgroup of `S`
partials is folded into one partial sum. -/
def reduceAvgLevel (S : Nat) (partials : List Vec3) : List Vec3 :=
  (chunksOf S partials).map vsum

/-- Modelled from the spec: the iterative "reduce_avg" passes fold the
workgroup partials down to a single value, terminating when at most one
remains; a level shrinks the list by the subgroup factor, so a fuel of the
initial length suffices (the fuel-exhausted branch is unreachable for
`2 ≤ S`). -/
def reduceSumAux : Nat → Nat → List Vec3 → Vec3
  | _, _, [] => ⟨0, 0, 0⟩
  | _, _, [v] => v
  | 0, _, _ => ⟨0, 0, 0⟩
  | fuel + 1, S, l => reduceSumAux fuel S (reduceAvgLevel S l)

/-- Modelled from the spec: the final folded sum of the "avg" pass's
workgroup partial sums. -/
def bounding_total (S : Nat) (verts : List Vec3) : Vec3 :=
  reduceSumAux verts.length S ((chunksOf S verts).map vsum)

/-- Modelled from the spec: the center is the final folded sum divided by
the vertex count. -/
def bounding_center (S : Nat) (verts : List Vec3) : Vec3 :=
  ⟨(bounding_total S verts).x / (verts.length : ℚ),
   (bounding_total S verts).y / (verts.length : ℚ),
   (bounding_total S verts).z / (verts.length : ℚ)⟩

/-- Modelled from the spec: squared Euclidean distance from the center to a
vertex (the per-vertex value of the "dist_sq" pass). -/
def dist_sq (c v : Vec3) : ℚ :=
  (v.x - c.x) ^ 2 + (v.y - c.y) ^ 2 + (v.z - c.z) ^ 2

/-- Modelled from the spec: a workgroup's maximum of its squared
distances (the values are non-negative, so 0 seeds the fold). -/
def maxList (l : List ℚ) : ℚ :=
  l.foldr max 0

/-- Modelled from the spec: one "reduce_dist_sq" level — each workgroup of
`S` partial maxima is folded into one maximum. -/
def reduceMaxLevel (S : Nat) (partials : List ℚ) : List ℚ :=
  (chunksOf S partials).map maxList

/-- Modelled from the spec: the iterative "reduce_dist_sq" fold, analogous
to `reduceSumAux`. -/
def reduceMaxAux : Nat → Nat → List ℚ → ℚ
  | _, _, [] => 0
  | _, _, [d] => d
  | 0, _, _ => 0
  | fuel + 1, S, l => reduceMaxAux fuel S (reduceMaxLevel S l)

/-- Modelled from the spec: the fourth float written at the destination
offset — the "dist_sq" pass computes every vertex's squared distance to the
computed center, each workgroup reduces to a maximum, and the iterative
"reduce_dist_sq" passes fold these to the single value copied into the
radius slot. -/
def bounding_radius_written (S : Nat) (verts : List Vec3) : ℚ :=
  reduceMaxAux verts.length S
    ((chunksOf S (verts.map (dist_sq (bounding_center S verts)))).map maxList)

/-! ## Theorems -/

/-! ### Association-list and `swap_remove` lemmas -/
theorem alookup_aset {α : Type} (m : List (Nat × α)) (k k' : Nat) (v : α) :
    alookup (aset m k v) k' = if k = k' then some v else alookup m k' := by
  induction m with
  | nil => by_cases h : k = k' <;> simp [aset, alookup, h]
  | cons p rest ih =>
    obtain ⟨k0, v0⟩ := p
    by_cases h0 : k0 = k
    · subst h0
      by_cases h : k0 = k' <;> simp [aset, alookup, h]
    · simp only [aset, if_neg h0, alookup]
      by_cases h : k0 = k'
      · have hk : ¬ k = k' := fun hh => h0 (h.trans hh.symm)
        simp [h, hk]
      · simp [h, ih]

theorem alookup_eq_none_iff {α : Type} (m : List (Nat × α)) (k : Nat) :
    alookup m k = none ↔ k ∉ m.map Prod.fst := by
  induction m with
  | nil => simp [alookup]
  | cons p rest ih =>
    obtain ⟨k0, v0⟩ := p
    by_cases h : k0 = k <;> simp [alookup, h, ih]
    omega

theorem aset_of_not_mem {α : Type} (m : List (Nat × α)) (k : Nat) (v : α)
    (h : k ∉ m.map Prod.fst) : aset m k v = m ++ [(k, v)] := by
  induction m with
  | nil => simp [aset]
  | cons p rest ih =>
    obtain ⟨k0, v0⟩ := p
    simp only [List.map_cons, List.mem_cons] at h
    push_neg at h
    simp only [aset]
    rw [if_neg (fun hh => h.1 hh.symm), ih h.2]
    simp

theorem aset_keys_of_mem {α : Type} (m : List (Nat × α)) (k : Nat) (v : α)
    (h : k ∈ m.map Prod.fst) :
    (aset m k v).map Prod.fst = m.map Prod.fst := by
  induction m with
  | nil => simp at h
  | cons p rest ih =>
    obtain ⟨k0, v0⟩ := p
    by_cases h0 : k0 = k
    · simp [aset, h0]
    · simp only [List.map_cons, List.mem_cons] at h
      rcases h with h | h




      · exact absurd h.symm h0
      · simp [aset, h0, ih h]

theorem aset_length_of_mem {α : Type} (m : List (Nat × α)) (k : Nat) (v : α)
    (h : k ∈ m.map Prod.fst) : (aset m k v).length = m.length := by
  have := aset_keys_of_mem m k v h
  have h1 : ((aset m k v).map Prod.fst).length = (m.map Prod.fst).length := by
    rw [this]
  simpa using h1

theorem aremove_sublist {α : Type} (m : List (Nat × α)) (k : Nat) :
    (aremove m k).Sublist m := by
  induction m with
  | nil => simp [aremove]
  | cons p rest ih =>
    obtain ⟨k0, v0⟩ := p
    by_cases h : k0 = k
    · simp only [aremove, if_pos h]
      exact List.sublist_cons_self (k0, v0) rest
    · simp only [aremove, if_neg h]
      exact ih.cons₂ (k0, v0)

theorem alookup_aremove {α : Type} (m : List (Nat × α)) (k k' : Nat)
    (hnd : (m.map Prod.fst).Nodup) :
    alookup (aremove m k) k' = if k = k' then none else alookup m k' := by
  induction m with
  | nil => simp [aremove, alookup]
  | cons p rest ih =>
    obtain ⟨k0, v0⟩ := p
    simp only [List.map_cons, List.nodup_cons] at hnd
    by_cases h : k0 = k
    · subst h
      by_cases h' : k0 = k'
      · subst h'
        simp [aremove, (alookup_eq_none_iff rest k0).mpr hnd.1]
      · simp [aremove, alookup, h']
    · by_cases h' : k0 = k'
      · subst h'
        have hne : ¬ k = k0 := fun hh => h hh.symm
        simp [aremove, alookup, h, hne]
      · simp [aremove, alookup, h, h', ih hnd.2]

theorem aremove_length {α : Type} (m : List (Nat × α)) (k : Nat)
    (h : (alookup m k).isSome) : (aremove m k).length + 1 = m.length := by
  induction m with
  | nil => simp [alookup] at h
  | cons p rest ih =>
    obtain ⟨k0, v0⟩ := p
    by_cases h0 : k0 = k
    · simp [aremove, h0]
    · simp only [alookup, if_neg h0] at h
      simp [aremove, h0, ih h]

theorem alookup_append_of_isSome {α : Type} (l1 l2 : List (Nat × α)) (k : Nat)
    (h : (alookup l1 k).isSome) : alookup (l1 ++ l2) k = alookup l1 k := by
  induction l1 with
  | nil => simp [alookup] at h
  | cons p rest ih =>
    obtain ⟨k0, v0⟩ := p
    by_cases h0 : k0 = k
    · simp [alookup, h0]
    · simp only [alookup, if_neg h0] at h ⊢
      simpa using ih h

theorem alookup_append_of_none {α : Type} (l1 l2 : List (Nat × α)) (k : Nat)
    (h : alookup l1 k = none) : alookup (l1 ++ l2) k = alookup l2 k := by
  induction l1 with
  | nil => simp [alookup]
  | cons p rest ih =>
    obtain ⟨k0, v0⟩ := p
    by_cases h0 : k0 = k
    · simp [alookup, h0] at h
    · simp only [alookup, if_neg h0] at h ⊢
      exact ih h

theorem alookup_singleton {α : Type} (k k' : Nat) (v : α) :
    alookup [(k, v)] k' = if k = k' then some v else none := by
  simp [alookup]

theorem alookup_isSome_iff_mem {α : Type} (m : List (Nat × α)) (k : Nat) :
    (alookup m k).isSome ↔ k ∈ m.map Prod.fst := by
  rcases hl : alookup m k with _ | v
  · simpa using (alookup_eq_none_iff m k).mp hl
  · simp only [Option.isSome_some, true_iff]
    by_contra hmem
    rw [(alookup_eq_none_iff m k).mpr hmem] at hl
    exact Option.noConfusion hl

theorem swapRemove_length {α : Type} (l : List α) (i : Nat) :
    (swapRemove l i).length = l.length - 1 := by
  unfold swapRemove
  cases hl : l.getLast? with
  | none =>
    have : l = [] := List.getLast?_eq_none_iff.mp hl
    subst this; rfl
  | some last => simp

theorem swapRemove_getElem? {α : Type} (l : List α) (i j : Nat) :
    (swapRemove l i)[j]? =
      if j < l.length - 1 then (if j = i then l[l.length - 1]? else l[j]?)
      else none := by
  unfold swapRemove
  cases hl : l.getLast? with
  | none =>
    have : l = [] := List.getLast?_eq_none_iff.mp hl
    subst this; simp
  | some last =>
    have hlast : l[l.length - 1]? = some last := by
      rw [← List.getLast?_eq_getElem?]; exact hl
    rw [List.getElem?_dropLast, List.length_set, List.getElem?_set]
    by_cases hj : j < l.length - 1
    · rw [if_pos hj, if_pos hj]
      by_cases hij : i = j
      · subst hij
        rw [if_pos rfl, if_pos rfl, if_pos (by omega), hlast]
      · rw [if_neg hij, if_neg (fun hh => hij hh.symm)]
    · rw [if_neg hj, if_neg hj]

theorem MBInv.init : MBInv .init ⟨0, []⟩ := by
  constructor <;> simp [ModelBufferState.init, alookup]

theorem MBInv.insert_step (s : ModelBufferState) (g : GhostState)
    (inv : MBInv s g) (model : Model) (materials : List Material)
    (translation : Vec3) (rotation : Quat) (s' : ModelBufferState)
    (hstep : mbStep s (.insert model materials translation rotation) = some s') :
    MBInv s' (ghostStep g (.insert model materials translation rotation)) := by
  rcases hm : material_array materials with _ | mats
  · simp [mbStep, insert_model_instance, hm] at hstep
  simp only [mbStep, insert_model_instance, hm, Option.map_some',
    Option.some.injEq] at hstep
  subst hstep
  simp only [ghostStep, hm]
  obtain ⟨N, live⟩ := g
  have hid : s.model_instance_id = N := inv.id_eq
  subst hid
  set n := s.model_instance_id with hn
  set d : ModelInstanceData :=
    { materials := mats, model := model, rotation := rotation,
      translation := translation } with hd
  have hfresh : alookup s.model_instance_index n = none := by
    rcases hmap : alookup s.model_instance_index n with _ | i
    · rfl
    · have hlt : n < n := inv.lt_next n (by simp [hmap])
      omega
  have hfresh_live : alookup live n = none := by
    rcases hl : alookup live n with _ | v
    · rfl
    · have h1 : (alookup s.model_instance_index n).isSome :=
        inv.live_sub n (by simp [hl])
      have hlt : n < n := inv.lt_next n h1
      omega
  have hset : aset s.model_instance_index n s.model_instance_index.length =
      s.model_instance_index ++ [(n, s.model_instance_index.length)] :=
    aset_of_not_mem _ _ _
      (fun hmem => by
        have hs := (alookup_isSome_iff_mem s.model_instance_index n).mpr hmem
        rw [hfresh] at hs
        simp at hs)
  have hL : s.model_instance_index.length = s.model_instances.length :=
    inv.map_len
  have htL : s.technique_instances.length = s.model_instances.length :=
    inv.tech_len
  have halk : ∀ k, k ≠ n →
      alookup (s.model_instance_index ++ [(n, s.model_instance_index.length)]) k
        = alookup s.model_instance_index k := by
    intro k hk
    rcases hmk : alookup s.model_instance_index k with _ | i
    · rw [alookup_append_of_none _ _ _ hmk, alookup_singleton,
        if_neg (fun hh => hk hh.symm)]
    · rw [alookup_append_of_isSome _ _ _ (by simp [hmk]), hmk]
  have halive : ∀ k, k ≠ n →
      alookup (live ++ [(n, d)]) k = alookup live k := by
    intro k hk
    rcases hmk : alookup live k with _ | v
    · rw [alookup_append_of_none _ _ _ hmk, alookup_singleton,
        if_neg (fun hh => hk hh.symm)]
    · rw [alookup_append_of_isSome _ _ _ (by simp [hmk]), hmk]
  have hlkn : alookup
      (s.model_instance_index ++ [(n, s.model_instance_index.length)]) n =
      some s.model_instance_index.length := by
    rw [alookup_append_of_none _ _ _ hfresh, alookup_singleton, if_pos rfl]
  constructor
  case id_eq => rfl
  case map_nodup =>
    rw [hset, List.map_append, List.nodup_append]
    refine ⟨inv.map_nodup, by simp, ?_⟩
    intro k hk hk1
    simp only [List.map_cons, List.map_nil, List.mem_singleton] at hk1
    rw [hk1] at hk
    have hs := (alookup_isSome_iff_mem s.model_instance_index n).mpr hk
    rw [hfresh] at hs
    simp at hs
  case live_nodup =>
    have hln : (live.map Prod.fst).Nodup := inv.live_nodup
    rw [List.map_append, List.nodup_append]
    refine ⟨hln, by simp, ?_⟩
    intro k hk hk1
    simp only [List.map_cons, List.map_nil, List.mem_singleton] at hk1
    rw [hk1] at hk
    have hs := (alookup_isSome_iff_mem live n).mpr hk
    rw [hfresh_live] at hs
    simp at hs
  case map_len =>
    rw [hset]
    simp [hL]
  case tech_len => simp [htL]
  case map_iff =>
    intro k i
    simp only [hset]
    by_cases hk : k = n
    · subst hk
      rw [hlkn]
      constructor
      · rintro ⟨rfl⟩
        rw [hL, List.getElem?_concat_length]
      · intro hr
        rw [List.getElem?_append] at hr
        split at hr
        · exact absurd ((inv.map_iff n _).mpr hr) (by simp [hfresh])
        · rename_i hige
          rcases List.getElem?_eq_some.mp hr with ⟨hb, hv⟩
          simp only [List.length_singleton] at hb
          congr 1
          omega
    · rw [halk k hk, List.getElem?_append]
      split
      · exact inv.map_iff k i
      · rename_i hige
        constructor
        · intro hsome
          have hmem := (inv.map_iff k i).mp hsome
          rcases List.getElem?_eq_some.mp hmem with ⟨hb, _⟩
          omega
        · intro hr
          rcases List.getElem?_eq_some.mp hr with ⟨hb, hv⟩
          simp only [List.length_singleton] at hb
          simp only [List.getElem_singleton] at hv
          exact absurd hv.symm hk
  case data_eq =>
    intro i k hik
    simp only [List.getElem?_append] at hik ⊢
    split at hik
    · rename_i hilt
      have hk : k ≠ n := by
        intro hkeq
        subst hkeq
        have hsome := (inv.map_iff n i).mpr hik
        have hlt : n < n := inv.lt_next n (by simp [hsome])
        omega
      have hde : alookup live k = s.technique_instances[i]? :=
        inv.data_eq i k hik
      rw [halive k hk, hde, if_pos (by omega : i < s.technique_instances.length)]
    · rename_i hige
      rcases List.getElem?_eq_some.mp hik with ⟨hb, hv⟩
      simp only [List.length_singleton] at hb
      simp only [List.getElem_singleton] at hv
      subst hv
      rw [alookup_append_of_none _ _ _ hfresh_live, alookup_singleton,
        if_pos rfl, if_neg (by omega : ¬ i < s.technique_instances.length)]
      have hi0t : i - s.technique_instances.length = 0 := by omega
      rw [hi0t]
      rfl
  case lt_next =>
    intro k hk
    by_cases hkn : k = n
    · subst hkn
      simp only [hn]
      omega
    · rw [hset, halk k hkn] at hk
      have hlt : k < n := inv.lt_next k hk
      simp only [hn] at hlt ⊢
      omega
  case live_sub =>
    intro k hk
    by_cases hkn : k = n
    · subst hkn
      rw [hset, hlkn]
      rfl
    · have hlk : (alookup live k).isSome := by rwa [halive k hkn] at hk
      rw [hset, halk k hkn]
      exact inv.live_sub k hlk

theorem MBInv.remove_step (s : ModelBufferState) (g : GhostState)
    (inv : MBInv s g) (handle : Nat) (s' : ModelBufferState)
    (hstep : mbStep s (.remove handle) = some s') :
    MBInv s' (ghostStep g (.remove handle)) := by
  obtain ⟨N, live⟩ := g
  have hid : s.model_instance_id = N := inv.id_eq
  subst hid
  have hlive_nd : (live.map Prod.fst).Nodup := inv.live_nodup
  have hnd := inv.map_nodup
  have hL := inv.map_len
  have htL := inv.tech_len
  simp only [mbStep, remove_model_instance] at hstep
  simp only [ghostStep]
  split at hstep
  · exact absurd hstep (by simp)
  rename_i idx hidx
  have hmem : s.model_instances[idx]? = some handle := (inv.map_iff handle idx).mp hidx
  have hlt : idx < s.model_instances.length := (List.getElem?_eq_some.mp hmem).1
  have hmaplen : (aremove s.model_instance_index handle).length + 1 =
      s.model_instance_index.length :=
    aremove_length _ _ (by simp [hidx])
  have ha1 : ∀ k, alookup (aremove s.model_instance_index handle) k =
      if handle = k then none else alookup s.model_instance_index k :=
    fun k => alookup_aremove _ _ _ hnd
  have halive : ∀ k, alookup (aremove live handle) k =
      if handle = k then none else alookup live k :=
    fun k => alookup_aremove _ _ _ hlive_nd
  have hnd1 : ((aremove s.model_instance_index handle).map Prod.fst).Nodup :=
    ((aremove_sublist _ _).map Prod.fst).nodup hnd
  have hlive_nd1 : ((aremove live handle).map Prod.fst).Nodup :=
    ((aremove_sublist _ _).map Prod.fst).nodup hlive_nd
  rw [if_pos (by omega : idx < s.technique_instances.length),
    if_pos hlt] at hstep
  split at hstep
  -- Case 1: the handle vector became empty; the removed slot was the only one.
  case isTrue hempty =>
    have hinsts0 : swapRemove s.model_instances idx = [] :=
      List.isEmpty_iff.mp hempty
    have hlen1 : s.model_instances.length = 1 := by
      have hsr := swapRemove_length s.model_instances idx
      rw [hinsts0] at hsr
      simp at hsr
      omega
    have hidx0 : idx = 0 := by omega
    simp only [Option.some.injEq] at hstep
    subst hstep
    constructor
    case id_eq => rfl
    case map_nodup => exact hnd1
    case live_nodup => exact hlive_nd1
    case map_len =>
      simp only [hinsts0]
      simp only [List.length_nil]
      omega
    case tech_len =>
      rw [swapRemove_length, hinsts0]
      simp only [List.length_nil]
      omega
    case map_iff =>
      intro k i
      simp only [hinsts0, List.getElem?_nil]
      rw [ha1 k]
      constructor
      · intro hsome
        by_cases hk : handle = k
        · rw [if_pos hk] at hsome
          exact absurd hsome (by simp)
        · rw [if_neg hk] at hsome
          have hik := (inv.map_iff k i).mp hsome
          have hib := (List.getElem?_eq_some.mp hik).1
          have hi0 : i = 0 := by omega
          subst hi0
          rw [hidx0] at hmem
          rw [hmem] at hik
          exact absurd (Option.some.injEq _ _ ▸ hik) hk
      · intro hsome
        exact absurd hsome (by simp)
    case data_eq =>
      intro i k hik
      rw [hinsts0] at hik
      simp at hik
    case lt_next =>
      intro k hk
      rw [ha1 k] at hk
      by_cases hkh : handle = k
      · rw [if_pos hkh] at hk
        simp at hk
      · rw [if_neg hkh] at hk
        exact inv.lt_next k hk
    case live_sub =>
      intro k hk
      rw [halive k] at hk
      by_cases hkh : handle = k
      · rw [if_pos hkh] at hk
        simp at hk
      · rw [if_neg hkh] at hk
        rw [ha1 k, if_neg hkh]
        exact inv.live_sub k hk
  -- Case 2: other instances remain; the former last slot is relocated.
  case isFalse hne =>
    split at hstep
    case h_1 hmoved' => exact absurd hstep (by simp)
    case h_2 moved hmoved' =>
    rw [swapRemove_getElem?] at hmoved'
    split at hmoved'
    case isFalse => exact absurd hmoved' (by simp)
    case isTrue hidxlt =>
    rw [if_pos rfl] at hmoved'
    have hmvlook : alookup s.model_instance_index moved =
        some (s.model_instances.length - 1) :=
      (inv.map_iff moved _).mpr hmoved'
    have hmvne : moved ≠ handle := by
      intro he
      subst he
      rw [hidx] at hmvlook
      have := Option.some.injEq idx (s.model_instances.length - 1) ▸ hmvlook
      omega
    have hm1look : alookup (aremove s.model_instance_index handle) moved =
        some (s.model_instances.length - 1) := by
      rw [ha1 moved, if_neg (fun he => hmvne he.symm)]
      exact hmvlook
    rw [if_pos (by simp [hm1look])] at hstep
    simp only [Option.some.injEq] at hstep
    subst hstep
    have hmv_mem : moved ∈ (aremove s.model_instance_index handle).map Prod.fst :=
      (alookup_isSome_iff_mem _ _).mp (by simp [hm1look])
    have hlk2 : ∀ k, alookup (aset (aremove s.model_instance_index handle) moved idx) k =
        if moved = k then some idx
        else if handle = k then none else alookup s.model_instance_index k := by
      intro k
      rw [alookup_aset, ha1 k]
    have hg : ∀ j, (swapRemove s.model_instances idx)[j]? =
        if j < s.model_instances.length - 1 then
          (if j = idx then some moved else s.model_instances[j]?) else none := by
      intro j
      rw [swapRemove_getElem?]
      by_cases hj : j < s.model_instances.length - 1
      · rw [if_pos hj, if_pos hj]
        by_cases hji : j = idx
        · subst hji
          rw [if_pos rfl, if_pos rfl, hmoved']
        · rw [if_neg hji, if_neg hji]
      · rw [if_neg hj, if_neg hj]
    constructor
    case id_eq => rfl
    case map_nodup =>
      rw [aset_keys_of_mem _ _ _ hmv_mem]
      exact hnd1
    case live_nodup => exact hlive_nd1
    case map_len =>
      rw [aset_length_of_mem _ _ _ hmv_mem, swapRemove_length]
      omega
    case tech_len =>
      rw [swapRemove_length, swapRemove_length]
      omega
    case map_iff =>
      intro k i
      rw [hlk2 k, hg i]
      by_cases hkm : moved = k
      · subst hkm
        rw [if_pos rfl]
        constructor
        · intro hsome
          have hieq : i = idx := by
            have h2 := Option.some.injEq idx i ▸ hsome
            omega
          subst hieq
          rw [if_pos hidxlt, if_pos rfl]
        · intro hr
          split at hr
          · rename_i hilt
            split at hr
            · rename_i hieq
              rw [hieq]
            · rename_i hine
              have hlook := (inv.map_iff moved i).mpr hr
              rw [hmvlook] at hlook
              have h2 := Option.some.injEq (s.model_instances.length - 1) i ▸ hlook
              omega
          · exact absurd hr (by simp)
      · by_cases hkh : handle = k
        · subst hkh
          rw [if_neg hkm, if_pos rfl]
          constructor
          · intro hsome
            exact absurd hsome (by simp)
          · intro hr
            split at hr
            · rename_i hilt
              split at hr
              · rename_i hieq
                exact absurd (Option.some.injEq moved handle ▸ hr)
                  (fun he => hkm he)
              · rename_i hine
                have hlook := (inv.map_iff handle i).mpr hr
                rw [hidx] at hlook
                have h2 := Option.some.injEq idx i ▸ hlook
                omega
            · exact absurd hr (by simp)
        · rw [if_neg hkm, if_neg hkh]
          constructor
          · intro hsome
            have hr := (inv.map_iff k i).mp hsome
            have hib := (List.getElem?_eq_some.mp hr).1
            have hine : i ≠ idx := by
              intro hieq
              subst hieq
              rw [hmem] at hr
              exact hkh (Option.some.injEq handle k ▸ hr)
            have hilast : i ≠ s.model_instances.length - 1 := by
              intro hieq
              subst hieq
              rw [hmoved'] at hr
              exact hkm (Option.some.injEq moved k ▸ hr)
            rw [if_pos (by omega), if_neg hine]
            exact hr
          · intro hr
            split at hr
            · rename_i hilt
              split at hr
              · rename_i hieq
                exact absurd (Option.some.injEq moved k ▸ hr) hkm
              · rename_i hine
                exact (inv.map_iff k i).mpr hr
            · exact absurd hr (by simp)
    case data_eq =>
      intro i k hik
      rw [hg i] at hik
      split at hik
      · rename_i hilt
        rw [swapRemove_getElem?,
          if_pos (by omega : i < s.technique_instances.length - 1)]
        split at hik
        · rename_i hieq
          subst hieq
          have hkm : moved = k := Option.some.injEq moved k ▸ hik
          subst hkm
          rw [halive moved, if_neg (fun he => hmvne he.symm), if_pos rfl]
          have hde : alookup live moved =
              s.technique_instances[s.model_instances.length - 1]? :=
            inv.data_eq _ moved hmoved'
          rw [hde, htL]
        · rename_i hine
          have hkh : handle ≠ k := by
            intro he
            subst he
            have hlook := (inv.map_iff handle i).mpr hik
            rw [hidx] at hlook
            have h2 := Option.some.injEq idx i ▸ hlook
            omega
          rw [halive k, if_neg hkh, if_neg hine]
          exact inv.data_eq i k hik
      · exact absurd hik (by simp)
    case lt_next =>
      intro k hk
      rw [hlk2 k] at hk
      by_cases hkm : moved = k
      · subst hkm
        exact inv.lt_next moved (by simp [hmvlook])
      · rw [if_neg hkm] at hk
        by_cases hkh : handle = k
        · rw [if_pos hkh] at hk
          simp at hk
        · rw [if_neg hkh] at hk
          exact inv.lt_next k hk
    case live_sub =>
      intro k hk
      rw [halive k] at hk
      rw [hlk2 k]
      by_cases hkm : moved = k
      · rw [if_pos hkm]
        rfl
      · rw [if_neg hkm]
        by_cases hkh : handle = k
        · rw [if_pos hkh] at hk
          simp at hk
        · rw [if_neg hkh] at hk ⊢
          exact inv.live_sub k hk

theorem mbRun_inv (ops : List MBOp) (s : ModelBufferState) (g : GhostState)
    (inv : MBInv s g) (s' : ModelBufferState) (hrun : mbRun s ops = some s') :
    MBInv s' (ghostRun g ops) := by
  induction ops generalizing s g with
  | nil =>
    simp only [mbRun, Option.some.injEq] at hrun
    subst hrun
    exact inv
  | cons op ops ih =>
    simp only [mbRun] at hrun
    rcases hstep : mbStep s op with _ | s1
    · rw [hstep] at hrun
      simp at hrun
    · rw [hstep, Option.some_bind] at hrun
      have inv1 : MBInv s1 (ghostStep g op) := by
        cases op with
        | insert model materials translation rotation =>
            exact MBInv.insert_step s g inv model materials translation rotation
              s1 hstep
        | remove h => exact MBInv.remove_step s g inv h s1 hstep
      simpa [ghostRun] using ih s1 (ghostStep g op) inv1 hrun

/-! ## C9: `material_array` padding/truncation -/

/-- C9: For every non-empty materials slice, the stored 8-slot array holds the
first `min(len, 8)` provided materials followed by copies of the first
material; entries beyond the eighth are dropped.  An empty slice faults
(debug-asserted precondition). -/
theorem material_array_pads_with_first (materials : List Material)
    (m0 : Material) (h : materials.head? = some m0) :
    ∃ arr, material_array materials = some arr ∧
      arr.length = MAX_MATERIALS_PER_MODEL ∧
      (∀ i : Nat, i < MAX_MATERIALS_PER_MODEL →
        arr[i]? = some (if i < materials.length then materials.getD i m0 else m0)) ∧
      material_array [] = none := by
  match materials, h with
  | m0 :: rest, rfl =>
    refine ⟨_, rfl, ?_, ?_, rfl⟩
    · simp only [material_array, List.length_take, List.length_append,
        List.length_cons, List.length_replicate]
      omega
    · intro i hi
      rw [List.getElem?_take, if_pos hi]
      by_cases hcase : i < (m0 :: rest).length
      · rw [List.getElem?_append, if_pos hcase, if_pos hcase]
        simp [List.getD_eq_getElem?_getD, List.getElem?_eq_getElem hcase]
      · have hge : (m0 :: rest).length ≤ i := Nat.le_of_not_lt hcase
        have hrep : i - (m0 :: rest).length < MAX_MATERIALS_PER_MODEL := by
          simp only [MAX_MATERIALS_PER_MODEL] at hi ⊢
          omega
        rw [List.getElem?_append_right hge, List.getElem?_replicate,
          if_pos hrep, if_neg hcase]

/-- Witness for C9 at a concrete three-element slice. -/
theorem material_array_pads_with_first_witness :
    ∃ arr, material_array [⟨5⟩, ⟨7⟩, ⟨9⟩] = some arr ∧
      arr.length = MAX_MATERIALS_PER_MODEL ∧
      (∀ i : Nat, i < MAX_MATERIALS_PER_MODEL →
        arr[i]? = some (if i < ([⟨5⟩, ⟨7⟩, ⟨9⟩] : List Material).length then
          ([⟨5⟩, ⟨7⟩, ⟨9⟩] : List Material).getD i ⟨5⟩ else ⟨5⟩)) ∧
      material_array [] = none :=
  material_array_pads_with_first [⟨5⟩, ⟨7⟩, ⟨9⟩] ⟨5⟩ rfl

/-! ## C1: swap-removal behaviour of `remove_model_instance` -/

/-- C1 (code bug): removing the instance stored in the LAST slot of a buffer
that still holds other instances faults instead of completing normally.
After `model_instances.swap_remove(index)` the vector's length equals
`index`, the vector is non-empty, and `self.model_instances[index]`
(mod.rs:516) is an out-of-bounds `Vec` index, which panics.  Concretely:
insert two instances and remove the second-inserted one (slot 1, the last
slot) — the embedded call faults (`none`), where the claim expects the array
to shrink by one with no relocation and the call to complete.  The second
conjunct shows the non-last case does complete, relocating the former-last
instance into the removed slot and remapping its handle. -/
theorem remove_model_instance_last_slot_panics :
    (do
      let s1p ← insert_model_instance .init ⟨0, 0⟩ [⟨7⟩] ⟨1, 0, 0⟩ ⟨0, 0, 0, 1⟩
      let s2p ← insert_model_instance s1p.1 ⟨0, 0⟩ [⟨9⟩] ⟨2, 0, 0⟩ ⟨0, 0, 0, 1⟩
      remove_model_instance s2p.1 s2p.2) = none ∧
    (do
      let s1p ← insert_model_instance .init ⟨0, 0⟩ [⟨7⟩] ⟨1, 0, 0⟩ ⟨0, 0, 0, 1⟩
      let s2p ← insert_model_instance s1p.1 ⟨0, 0⟩ [⟨9⟩] ⟨2, 0, 0⟩ ⟨0, 0, 0, 1⟩
      remove_model_instance s2p.1 s1p.2) =
      some { model_instance_id := 2
             model_instance_index := [(1, 0)]
             model_instances := [1]
             technique_instances :=
               [{ materials := List.replicate 8 ⟨9⟩
                  model := ⟨0, 0⟩
                  rotation := ⟨0, 0, 0, 1⟩
                  translation := ⟨2, 0, 0⟩ }] } := by
  constructor
  · rfl
  · rfl

/-! ## C2: instance lifecycle invariant -/

/-- C2: for every sequence of `insert_model_instance` / `remove_model_instance`
operations that runs without faulting, at the resulting observation point
(hence, by instantiating with each prefix, at every observation point) the
instance-index map and the instance array have equal cardinality — as does the
technique's data array — and every live handle resolves via the index map to
exactly one slot, which holds the handle and the data written for it at
insertion. -/
theorem model_buffer_instance_invariant (ops : List MBOp)
    (s : ModelBufferState) (hrun : mbRun .init ops = some s) :
    s.model_instance_index.length = s.model_instances.length ∧
    s.technique_instances.length = s.model_instances.length ∧
    ∀ h d, alookup (ghostRun ⟨0, []⟩ ops).live h = some d →
      ∃ i, alookup s.model_instance_index h = some i ∧
        s.model_instances[i]? = some h ∧
        s.technique_instances[i]? = some d ∧
        ∀ j, s.model_instances[j]? = some h → j = i := by
  have inv := mbRun_inv ops .init ⟨0, []⟩ MBInv.init s hrun
  refine ⟨inv.map_len, inv.tech_len, ?_⟩
  intro h d hd
  have hsm : (alookup s.model_instance_index h).isSome :=
    inv.live_sub h (by simp [hd])
  rcases hx : alookup s.model_instance_index h with _ | i
  · rw [hx] at hsm
    simp at hsm
  · have hmem := (inv.map_iff h i).mp hx
    have hdata := inv.data_eq i h hmem
    rw [hd] at hdata
    refine ⟨i, hx ▸ rfl, hmem, hdata.symm, ?_⟩
    intro j hj
    have hji := (inv.map_iff h j).mpr hj
    rw [hx] at hji
    exact (Option.some.injEq i j ▸ hji).symm

/-- Witness for C2: insert two instances, remove the first; the surviving
handle (1) resolves to slot 0 holding its inserted data. -/
theorem model_buffer_instance_invariant_witness :
    mbRun .init [.insert ⟨0, 0⟩ [⟨7⟩] ⟨1, 0, 0⟩ ⟨0, 0, 0, 1⟩,
        .insert ⟨0, 0⟩ [⟨9⟩] ⟨2, 0, 0⟩ ⟨0, 0, 0, 1⟩, .remove 0] =
      some { model_instance_id := 2
             model_instance_index := [(1, 0)]
             model_instances := [1]
             technique_instances :=
               [{ materials := List.replicate 8 ⟨9⟩
                  model := ⟨0, 0⟩
                  rotation := ⟨0, 0, 0, 1⟩
                  translation := ⟨2, 0, 0⟩ }] } ∧
    ({ model_instance_id := 2
       model_instance_index := [(1, 0)]
       model_instances := [1]
       technique_instances :=
         [{ materials := List.replicate 8 ⟨9⟩
            model := ⟨0, 0⟩
            rotation := ⟨0, 0, 0, 1⟩
            translation := ⟨2, 0, 0⟩ }] } : ModelBufferState).model_instance_index.length =
      ({ model_instance_id := 2
         model_instance_index := [(1, 0)]
         model_instances := [1]
         technique_instances :=
           [{ materials := List.replicate 8 ⟨9⟩
              model := ⟨0, 0⟩
              rotation := ⟨0, 0, 0, 1⟩
              translation := ⟨2, 0, 0⟩ }] } : ModelBufferState).model_instances.length :=
  ⟨rfl,
    (model_buffer_instance_invariant
      [.insert ⟨0, 0⟩ [⟨7⟩] ⟨1, 0, 0⟩ ⟨0, 0, 0, 1⟩,
        .insert ⟨0, 0⟩ [⟨9⟩] ⟨2, 0, 0⟩ ⟨0, 0, 0, 1⟩, .remove 0]
      _ rfl).1⟩

/-! ## C5: per-mesh-part index width -/

/-- C5: the index width recorded in each mesh record's flags is 16-bit exactly
when the part's vertex count is at most 65535 (`u16::MAX`), and 32-bit
otherwise; in particular a model with two mesh-parts of 500 and 70000 vertices
gets a 16-bit first part and a 32-bit second part. -/
theorem load_model_index_width (geometry_len : Nat) (parts : List MeshPart)
    (i : Nat) (p : MeshPart) (hp : parts[i]? = some p) :
    ((load_model_meshes geometry_len parts).1[i]?.map
        (fun m => m.index_ty_uint32)) = some (decide (65535 < p.vertex_count)) ∧
    (decide (65535 < p.vertex_count) = false ↔ p.vertex_count ≤ 65535) := by
  refine ⟨?_, by simp [Nat.not_lt]⟩
  induction parts generalizing geometry_len i with
  | nil => simp at hp
  | cons q rest ih =>
    cases i with
    | zero =>
      simp only [List.getElem?_cons_zero, Option.some.injEq] at hp
      subst hp
      simp [load_model_meshes, load_model_step]
    | succ j =>
      simp only [List.getElem?_cons_succ] at hp
      have := ih (load_model_step geometry_len q).2 j hp
      simpa [load_model_meshes] using this

/-- Witness for C5: the spec's end-to-end scenario, two mesh-parts of 500 and
70000 vertices (48-byte stride), first 16-bit, second 32-bit. -/
theorem load_model_index_width_witness :
    ([⟨[], 500 * 48, 48, 0, false⟩, ⟨[], 70000 * 48, 48, 0, false⟩] :
        List MeshPart)[0]? = some ⟨[], 500 * 48, 48, 0, false⟩ ∧
    (((load_model_meshes 0
        [⟨[], 500 * 48, 48, 0, false⟩, ⟨[], 70000 * 48, 48, 0, false⟩]).1[0]?.map
        (fun m => m.index_ty_uint32)) = some false) ∧
    (((load_model_meshes 0
        [⟨[], 500 * 48, 48, 0, false⟩, ⟨[], 70000 * 48, 48, 0, false⟩]).1[1]?.map
        (fun m => m.index_ty_uint32)) = some true) := by
  refine ⟨rfl, ?_, ?_⟩
  · have := (load_model_index_width 0
      [⟨[], 500 * 48, 48, 0, false⟩, ⟨[], 70000 * 48, 48, 0, false⟩] 0
      ⟨[], 500 * 48, 48, 0, false⟩ rfl).1
    simpa [MeshPart.vertex_count] using this
  · have := (load_model_index_width 0
      [⟨[], 500 * 48, 48, 0, false⟩, ⟨[], 70000 * 48, 48, 0, false⟩] 1
      ⟨[], 70000 * 48, 48, 0, false⟩ rfl).1
    simpa [MeshPart.vertex_count] using this

/-! ### Counting lemmas for the `Raster` invariant -/
theorem getD_set (l : List Nat) (i m x : Nat) :
    (l.set i x).getD m 0 = if i = m ∧ i < l.length then x else l.getD m 0 := by
  rw [List.getD_eq_getElem?_getD, List.getElem?_set, List.getD_eq_getElem?_getD]
  by_cases h1 : i = m
  · subst h1
    by_cases h2 : i < l.length <;> simp [h2]
    rw [List.getElem?_eq_none (by omega)]
    rfl
  · simp [h1]

theorem sum_set (l : List Nat) (i x : Nat) (h : i < l.length) :
    (l.set i x).sum + l.getD i 0 = l.sum + x := by
  induction l generalizing i with
  | nil => simp at h
  | cons a rest ih =>
    cases i with
    | zero => simp [List.sum_cons]; omega
    | succ j =>
      rw [List.set_cons_succ]
      simp only [List.sum_cons, List.getD_cons_succ]
      have hj := ih j (by simpa using h)
      omega

theorem bumpRange_length (f : Nat → Nat) (l : List Nat) (i c : Nat) :
    (bumpRange f l i c).length = l.length := by
  induction c generalizing l i with
  | zero => rw [bumpRange]
  | succ c ih => rw [bumpRange, ih, List.length_set]

theorem bumpRange_getD (f : Nat → Nat) (l : List Nat) (i c m : Nat)
    (hc : i + c ≤ l.length) :
    (bumpRange f l i c).getD m 0 =
      if i ≤ m ∧ m < i + c then f (l.getD m 0) else l.getD m 0 := by
  induction c generalizing l i with
  | zero =>
    rw [bumpRange, if_neg (by omega)]
  | succ c ih =>
    rw [bumpRange, ih _ _ (by rw [List.length_set]; omega), getD_set]
    by_cases hmi : i = m
    · subst hmi
      rw [if_neg (by omega : ¬ (i + 1 ≤ i ∧ i < i + 1 + c)),
        if_pos ⟨rfl, by omega⟩, if_pos ⟨le_refl i, by omega⟩]
    · rw [if_neg (by omega : ¬ (i = m ∧ i < l.length))]
      by_cases h2 : i + 1 ≤ m ∧ m < i + 1 + c
      · rw [if_pos h2, if_pos (by omega)]
      · rw [if_neg h2, if_neg (by omega)]

theorem bumpRange_sum_add (l : List Nat) (i c : Nat) (hc : i + c ≤ l.length) :
    (bumpRange (· + 1) l i c).sum = l.sum + c := by
  induction c generalizing l i with
  | zero =>
    rw [bumpRange]
    omega
  | succ c ih =>
    rw [bumpRange, ih _ _ (by rw [List.length_set]; omega)]
    have hs := sum_set l i (l.getD i 0 + 1) (by omega)
    omega

theorem bumpRange_sum_sub (l : List Nat) (i c : Nat) (hc : i + c ≤ l.length)
    (hpos : ∀ m, i ≤ m → m < i + c → 0 < l.getD m 0) :
    (bumpRange (· - 1) l i c).sum + c = l.sum := by
  induction c generalizing l i with
  | zero =>
    rw [bumpRange]
    omega
  | succ c ih =>
    rw [bumpRange]
    have hp0 : 0 < l.getD i 0 := hpos i (le_refl i) (by omega)
    have hs := sum_set l i (l.getD i 0 - 1) (by omega)
    have hpos' : ∀ m, i + 1 ≤ m → m < (i + 1) + c →
        0 < (l.set i (l.getD i 0 - 1)).getD m 0 := by
      intro m hm1 hm2
      rw [getD_set, if_neg (by omega : ¬ (i = m ∧ i < l.length))]
      exact hpos m (by omega) (by omega)
    have hrec := ih (l.set i (l.getD i 0 - 1)) (i + 1)
      (by rw [List.length_set]; omega) hpos'
    omega

theorem swapRemove_perm {α : Type} (l : List α) (i : Nat) (hi : i < l.length) :
    (swapRemove l i).Perm (l.eraseIdx i) := by
  induction l generalizing i with
  | nil => simp at hi
  | cons a rest ih =>
    cases i with
    | zero =>
      cases rest with
      | nil => simp [swapRemove, List.eraseIdx]
      | cons b t =>
        have hne : (b :: t : List α) ≠ [] := by simp
        rw [swapRemove, List.getLast?_cons_cons, List.getLast?_eq_getLast _ hne,
          List.eraseIdx_cons_zero]
        show ((((a :: b :: t).set 0 ((b :: t).getLast hne))).dropLast).Perm (b :: t)
        rw [List.set_cons_zero, List.dropLast_cons_of_ne_nil hne]
        have hperm := (List.perm_append_singleton ((b :: t).getLast hne)
          ((b :: t).dropLast)).symm
        rw [List.dropLast_append_getLast hne] at hperm
        exact hperm
    | succ j =>
      cases rest with
      | nil => simp at hi
      | cons b t =>
        have hne : (b :: t : List α) ≠ [] := by simp
        have hset_ne : ((b :: t).set j ((b :: t).getLast hne)) ≠ [] := by
          intro hcon
          have := List.length_set (b :: t) j ((b :: t).getLast hne)
          rw [hcon] at this
          simp at this
        rw [swapRemove, List.getLast?_cons_cons, List.getLast?_eq_getLast _ hne,
          List.eraseIdx_cons_succ]
        show ((((a :: b :: t).set (j + 1) ((b :: t).getLast hne))).dropLast).Perm
          (a :: (b :: t).eraseIdx j)
        rw [List.set_cons_succ, List.dropLast_cons_of_ne_nil hset_ne]
        refine List.Perm.cons a ?_
        have hj : j < (b :: t).length := by simpa using hi
        have hihj := ih j hj
        rw [swapRemove, List.getLast?_eq_getLast _ hne] at hihj
        exact hihj

theorem countP_swapRemove {α : Type} (p : α → Bool) (l : List α) (i : Nat)
    (x : α) (hx : l[i]? = some x) :
    (swapRemove l i).countP p + (if p x then 1 else 0) = l.countP p := by
  have hi : i < l.length := (List.getElem?_eq_some.mp hx).1
  have hperm := swapRemove_perm l i hi
  rw [hperm.countP_eq, List.eraseIdx_eq_take_drop_succ, List.countP_append]
  have hl : l.countP p = (List.take i l ++ l[i] :: List.drop (i + 1) l).countP p := by
    rw [← List.drop_eq_getElem_cons hi, List.take_append_drop]
  rw [hl, List.countP_append, List.countP_cons]
  have hxi : l[i] = x := (List.getElem?_eq_some.mp hx).2
  rw [hxi]
  omega

/-! ### Preservation of the `Raster` invariant -/
theorem RasterInv.inst_range {s : RasterState} {models : List Model}
    (inv : RasterInv s models) (d : ModelInstanceData)
    (hd : d ∈ s.model_instances) :
    d.model.model_idx < s.model_mesh_count.length ∧
    d.model.mesh_idx +
      s.model_mesh_count.getD d.model.model_idx 0 ≤ s.mesh_count := by
  obtain ⟨k, hk⟩ := inv.inst_model d hd
  obtain ⟨h1, h2⟩ := inv.models_spec k d.model hk
  have hklen : k < models.length := (List.getElem?_eq_some.mp hk).1
  have hkmm : k < s.model_mesh_count.length := by
    rw [inv.models_len] at hklen
    exact hklen
  have hgd : s.model_mesh_count.getD k 0 = s.model_mesh_count[k] :=
    List.getD_eq_getElem _ _ hkmm
  have hsucc := List.sum_take_succ s.model_mesh_count k hkmm
  have hbound := List.sum_take_add_sum_drop s.model_mesh_count (k + 1)
  refine ⟨h1 ▸ hkmm, ?_⟩
  rw [h1, h2, hgd, inv.mesh_count_eq]
  omega

theorem RasterInv.init_raster : RasterInv .init [] := by
  constructor <;> simp [RasterState.init]

theorem RasterInv.load_step {s : RasterState} {models : List Model}
    (inv : RasterInv s models) (g : Nat) :
    RasterInv (raster_load_model s g)
      (models ++ [{ mesh_idx := s.mesh_count,
                    model_idx := s.model_mesh_count.length }]) := by
  have hml := inv.models_len
  constructor
  case counts_len =>
    simp [raster_load_model, inv.counts_len]
  case mesh_count_eq =>
    simp [raster_load_model, inv.mesh_count_eq]
  case models_len =>
    simp [raster_load_model, hml]
  case models_spec =>
    intro k M hM
    rw [List.getElem?_append] at hM
    split at hM
    · rename_i hklt
      obtain ⟨h1, h2⟩ := inv.models_spec k M hM
      refine ⟨h1, ?_⟩
      rw [h2]
      simp only [raster_load_model]
      rw [List.take_append_of_le_length (by omega)]
    · rename_i hkge
      rcases List.getElem?_eq_some.mp hM with ⟨hb, hv⟩
      simp only [List.length_singleton] at hb
      simp only [List.getElem_singleton] at hv
      have hkeq : k = models.length := by omega
      subst hv
      constructor
      · simp
        omega
      · simp only [raster_load_model]
        rw [hkeq, hml, List.take_append_of_le_length (le_refl _),
          List.take_length, inv.mesh_count_eq]
  case inst_model =>
    intro d hd
    obtain ⟨k, hk⟩ := inv.inst_model d hd
    have hklen : k < models.length := (List.getElem?_eq_some.mp hk).1
    refine ⟨k, ?_⟩
    rw [List.getElem?_append, if_pos hklen]
    exact hk
  case total_eq =>
    simp [raster_load_model, inv.total_eq, List.sum_replicate]
  case counts_eq =>
    intro m hm
    simp only [raster_load_model] at hm ⊢
    have hcov : ∀ d ∈ s.model_instances,
        coversMesh (s.model_mesh_count ++ [g]) d m =
          coversMesh s.model_mesh_count d m := by
      intro d hd
      have hrange := inv.inst_range d hd
      simp only [coversMesh]
      rw [List.getD_append _ _ _ _ hrange.1]
    have hcount : s.model_instances.countP
        (fun d => coversMesh (s.model_mesh_count ++ [g]) d m) =
        s.model_instances.countP (fun d => coversMesh s.model_mesh_count d m) :=
      List.countP_congr (fun d hd => by rw [hcov d hd])
    rw [hcount]
    by_cases hmold : m < s.mesh_instance_counts.length
    · rw [List.getD_append _ _ _ _ hmold]
      exact inv.counts_eq m hmold
    · rw [List.getD_append_right _ _ _ _ (by omega)]
      have hz : (List.replicate g (0 : Nat)).getD
          (m - s.mesh_instance_counts.length) 0 = 0 := by
        rcases Nat.lt_or_ge (m - s.mesh_instance_counts.length) g with hlt | hge
        · rw [List.getD_eq_getElem _ _ (by simpa using hlt)]
          simp
        · rw [List.getD_eq_getElem?_getD, List.getElem?_eq_none (by simpa using hge)]
          rfl
      rw [hz]
      symm
      rw [List.countP_eq_zero]
      intro d hd
      have hrange := inv.inst_range d hd
      simp only [coversMesh, decide_eq_true_eq]
      rw [inv.counts_len] at hmold
      intro hcon
      omega

theorem RasterInv.push_step {s : RasterState} {models : List Model}
    (inv : RasterInv s models) (k : Nat) (materials : List Material)
    (translation : Vec3) (rotation : Quat) (s' : RasterState)
    (models' : List Model)
    (hstep : rasterStep s models (.insert k materials translation rotation) =
      some (s', models')) :
    RasterInv s' models' := by
  simp only [rasterStep] at hstep
  split at hstep
  · exact absurd hstep (by simp)
  rename_i model hk
  simp only [raster_push_model_instance] at hstep
  split at hstep
  · exact absurd hstep (by simp)
  rename_i mc hmc
  split at hstep
  case isFalse => exact absurd hstep (by simp)
  case isTrue hb =>
  simp only [Option.map_some', Option.some.injEq, Prod.mk.injEq] at hstep
  obtain ⟨hs', hmodels'⟩ := hstep
  subst hs'
  subst hmodels'
  have hgd : s.model_mesh_count.getD model.model_idx 0 = mc := by
    rw [List.getD_eq_getElem?_getD, hmc]
    rfl
  constructor
  case counts_len =>
    dsimp only
    rw [bumpRange_length, inv.counts_len]
  case mesh_count_eq => exact inv.mesh_count_eq
  case models_len => exact inv.models_len
  case models_spec => exact inv.models_spec
  case inst_model =>
    dsimp only
    intro e he
    rw [List.mem_append] at he
    rcases he with he | he
    · exact inv.inst_model e he
    · simp only [List.mem_singleton] at he
      subst he
      exact ⟨k, hk⟩
  case total_eq =>
    dsimp only
    rw [bumpRange_sum_add _ _ _ hb, inv.total_eq]
  case counts_eq =>
    dsimp only
    intro m hm
    rw [bumpRange_length] at hm
    rw [bumpRange_getD _ _ _ _ _ hb, List.countP_append, List.countP_cons,
      List.countP_nil, inv.counts_eq m hm]
    by_cases hcov : model.mesh_idx ≤ m ∧ m < model.mesh_idx + mc
    · rw [if_pos (by exact hcov),
        if_pos (by
          simp only [coversMesh, decide_eq_true_eq, hgd]
          try exact hcov)]
      try omega
    · rw [if_neg (by exact hcov),
        if_neg (by
          simp only [coversMesh, decide_eq_true_eq, hgd]
          try exact hcov)]
      try omega

theorem RasterInv.swap_remove_step {s : RasterState} {models : List Model}
    (inv : RasterInv s models) (idx : Nat) (s' : RasterState)
    (models' : List Model)
    (hstep : rasterStep s models (.remove idx) = some (s', models')) :
    RasterInv s' models' := by
  simp only [rasterStep, raster_swap_remove_model_instance] at hstep
  split at hstep
  · exact absurd hstep (by simp)
  rename_i removed hremoved
  split at hstep
  · exact absurd hstep (by simp)
  rename_i mc hmc
  split at hstep
  case isFalse => exact absurd hstep (by simp)
  case isTrue hb =>
  simp only [Option.map_some', Option.some.injEq, Prod.mk.injEq] at hstep
  obtain ⟨hs', hmodels'⟩ := hstep
  subst hs'
  subst hmodels'
  have hgd : s.model_mesh_count.getD removed.model.model_idx 0 = mc := by
    rw [List.getD_eq_getElem?_getD, hmc]
    rfl
  have hmemr : removed ∈ s.model_instances := by
    have hb2 := List.getElem?_eq_some.mp hremoved
    rcases hb2 with ⟨hbnd, hval⟩
    rw [← hval]
    exact List.getElem_mem hbnd
  have hpos : ∀ m, removed.model.mesh_idx ≤ m →
      m < removed.model.mesh_idx + mc →
      0 < s.mesh_instance_counts.getD m 0 := by
    intro m hm1 hm2
    rw [inv.counts_eq m (by omega)]
    rw [List.countP_pos_iff]
    refine ⟨removed, hmemr, ?_⟩
    simp only [coversMesh, decide_eq_true_eq, hgd]
    exact ⟨hm1, hm2⟩
  have hsub := bumpRange_sum_sub s.mesh_instance_counts
    removed.model.mesh_idx mc hb hpos
  constructor
  case counts_len =>
    dsimp only
    rw [bumpRange_length, inv.counts_len]
  case mesh_count_eq => exact inv.mesh_count_eq
  case models_len => exact inv.models_len
  case models_spec => exact inv.models_spec
  case inst_model =>
    dsimp only
    intro e he
    have hperm := swapRemove_perm s.model_instances idx
      (List.getElem?_eq_some.mp hremoved).1
    have hmem2 : e ∈ s.model_instances :=
      (List.eraseIdx_sublist s.model_instances idx).mem (hperm.mem_iff.mp he)
    exact inv.inst_model e hmem2
  case total_eq =>
    dsimp only
    rw [inv.total_eq]
    omega
  case counts_eq =>
    dsimp only
    intro m hm
    rw [bumpRange_length] at hm
    rw [bumpRange_getD _ _ _ _ _ hb, inv.counts_eq m hm]
    have hcountP := countP_swapRemove
      (fun d => coversMesh s.model_mesh_count d m) s.model_instances idx
      removed hremoved
    by_cases hcov : removed.model.mesh_idx ≤ m ∧
        m < removed.model.mesh_idx + mc
    · rw [if_pos (by exact hcov)]
      rw [if_pos (by
        simp only [coversMesh, decide_eq_true_eq, hgd]
        try exact hcov)] at hcountP
      omega
    · rw [if_neg (by exact hcov)]
      rw [if_neg (by
        simp only [coversMesh, decide_eq_true_eq, hgd]
        try exact hcov)] at hcountP
      omega

theorem rasterRun_inv (ops : List RasterOp) (s : RasterState)
    (models : List Model) (inv : RasterInv s models) (s' : RasterState)
    (hrun : rasterRun s models ops = some s') :
    ∃ models', RasterInv s' models' := by
  induction ops generalizing s models with
  | nil =>
    simp only [rasterRun, Option.some.injEq] at hrun
    subst hrun
    exact ⟨models, inv⟩
  | cons op ops ih =>
    simp only [rasterRun] at hrun
    rcases hstep : rasterStep s models op with _ | p
    · rw [hstep] at hrun
      simp at hrun
    · rw [hstep, Option.some_bind] at hrun
      have inv1 : RasterInv p.1 p.2 := by
        cases op with
        | load g =>
            simp only [rasterStep, Option.some.injEq] at hstep
            rw [← hstep]
            exact inv.load_step g
        | insert k materials translation rotation =>
            exact inv.push_step k materials translation rotation p.1 p.2
              (by rw [hstep])
        | remove idx =>
            exact inv.swap_remove_step idx p.1 p.2 (by rw [hstep])
      exact ih p.1 p.2 inv1 hrun

/-! ## C10: the `Raster` mesh-instance count invariant -/

/-- C10: after every non-faulting sequence of `load_model`,
`push_model_instance` and `swap_remove_model_instance` operations on the
`Raster` technique (driven by `ModelBuffer` handles), `mesh_instance_count`
equals the sum over all meshes of `mesh_instance_counts`, and for every mesh
index `m` the per-mesh count equals the number of live model instances whose
model's contiguous mesh range contains `m`. -/
theorem raster_mesh_instance_counts_invariant (ops : List RasterOp)
    (s : RasterState) (hrun : rasterRun .init [] ops = some s) :
    s.mesh_instance_count = s.mesh_instance_counts.sum ∧
    ∀ m : Nat, m < s.mesh_instance_counts.length →
      s.mesh_instance_counts.getD m 0 =
        s.model_instances.countP
          (fun d => coversMesh s.model_mesh_count d m) := by
  obtain ⟨models', inv⟩ := rasterRun_inv ops .init [] RasterInv.init_raster s hrun
  exact ⟨inv.total_eq, inv.counts_eq⟩

/-- Witness for C10: load a 2-mesh and a 3-mesh model, insert three
instances, swap-remove one. -/
theorem raster_mesh_instance_counts_invariant_witness :
    ∃ s, rasterRun .init []
        [.load 2, .load 3, .insert 0 [⟨1⟩] ⟨0, 0, 0⟩ ⟨0, 0, 0, 1⟩,
         .insert 1 [⟨2⟩] ⟨0, 0, 0⟩ ⟨0, 0, 0, 1⟩,
         .insert 0 [⟨3⟩] ⟨0, 0, 0⟩ ⟨0, 0, 0, 1⟩, .remove 0] = some s ∧
      (s.mesh_instance_count = s.mesh_instance_counts.sum ∧
      ∀ m : Nat, m < s.mesh_instance_counts.length →
        s.mesh_instance_counts.getD m 0 =
          s.model_instances.countP
            (fun d => coversMesh s.model_mesh_count d m)) :=
  ⟨_, rfl, raster_mesh_instance_counts_invariant
    [.load 2, .load 3, .insert 0 [⟨1⟩] ⟨0, 0, 0⟩ ⟨0, 0, 0, 1⟩,
     .insert 1 [⟨2⟩] ⟨0, 0, 0⟩ ⟨0, 0, 0, 1⟩,
     .insert 0 [⟨3⟩] ⟨0, 0, 0⟩ ⟨0, 0, 0, 1⟩, .remove 0] _ rfl⟩

/-- The 12 floats copied into a TLAS entry are exactly the row-major 3x4
`[R | t]` matrix of the rigid transform given by the instance's (unit)
rotation quaternion and translation. -/
theorem tlas_matrix_row_major (q : Quat) (t : Vec3) (h : unit_quat q) :
    tlas_matrix q t = row_major_3x4 q t := by
  obtain ⟨x, y, z, w⟩ := q
  obtain ⟨tx, ty, tz⟩ := t
  simp only [unit_quat] at h
  simp only [tlas_matrix, row_major_3x4, mat4_from_rotation_translation_cols,
    transpose_cols, quat_rotate, qmul, qconj, List.take]
  simp only [List.cons.injEq, and_true]
  repeat' apply And.intro
  all_goals first
    | trivial
    | ring1
    | linear_combination -h

/-! ## C6: TLAS contents on every `record` call -/
theorem build_tlas_entries_spec (blas : List Nat) (i0 : Nat)
    (l : List ModelInstanceData) (r : List TlasInstance)
    (h : build_tlas_entries blas i0 l = some r) :
    r.length = l.length ∧
    ∀ (j : Nat) (d : ModelInstanceData), l[j]? = some d →
      ∃ e, r[j]? = some e ∧
        e.transform = tlas_matrix d.rotation d.translation ∧
        e.instance_custom_index_and_mask = packed24_8 (i0 + j) 0xff ∧
        blas[d.model.model_idx]? = some e.blas_address := by
  induction l generalizing i0 r with
  | nil =>
    simp only [build_tlas_entries, Option.some.injEq] at h
    subst h
    simp
  | cons d0 rest ih =>
    rw [build_tlas_entries] at h
    split at h
    · simp at h
    rename_i addr haddr
    rcases htail : build_tlas_entries blas (i0 + 1) rest with _ | tail
    · rw [htail] at h
      simp at h
    · rw [htail] at h
      simp only [Option.map_some', Option.some.injEq] at h
      subst h
      obtain ⟨hlen, hall⟩ := ih (i0 + 1) tail htail
      refine ⟨by simp [hlen], ?_⟩
      intro j d hj
      cases j with
      | zero =>
        simp only [List.getElem?_cons_zero, Option.some.injEq] at hj
        subst hj
        refine ⟨{ transform := tlas_matrix d0.rotation d0.translation
                  instance_custom_index_and_mask := packed24_8 i0 0xff
                  sbt_offset_and_flags := packed24_8 0 4
                  blas_address := addr }, by simp, rfl, by simp, haddr⟩
      | succ k =>
        simp only [List.getElem?_cons_succ] at hj ⊢
        obtain ⟨e, he1, he2, he3, he4⟩ := hall k d hj
        refine ⟨e, he1, he2, ?_, he4⟩
        rw [he3, show i0 + 1 + k = i0 + (k + 1) from by omega]

/-- C6: on every `record()` call of the ray-trace technique, the TLAS is
built from exactly the current live model instances: one entry per slot, the
entry of slot `i` carrying the row-major 3x4 transform derived from that
instance's rotation and translation, custom index `i` (in the low 24 bits of
the packed custom-index/mask word), and the BLAS address
`model_blas[model_idx]` of the instance's model. -/
theorem ray_trace_record_builds_tlas (s : RayTraceState)
    (entries : List TlasInstance) (s' : RayTraceState)
    (hrec : rayTraceRecord s = some (entries, s'))
    (hunit : ∀ d ∈ s.model_instances, unit_quat d.rotation)
    (hcount : s.model_instances.length ≤ 2 ^ 24) :
    entries.length = s.model_instances.length ∧
    ∀ (i : Nat) (d : ModelInstanceData), s.model_instances[i]? = some d →
      ∃ e, entries[i]? = some e ∧
        e.transform = row_major_3x4 d.rotation d.translation ∧
        e.instance_custom_index_and_mask % 2 ^ 24 = i ∧
        s.model_blas[d.model.model_idx]? = some e.blas_address := by
  rcases hb : build_tlas s with _ | tlas
  · rw [rayTraceRecord, hb] at hrec
    simp at hrec
  · rw [rayTraceRecord, hb] at hrec
    simp only [Option.map_some', Option.some.injEq, Prod.mk.injEq] at hrec
    obtain ⟨he, hs'⟩ := hrec
    subst he
    obtain ⟨hlen, hall⟩ := build_tlas_entries_spec _ _ _ _ hb
    refine ⟨hlen, ?_⟩
    intro i d hid
    have hi : i < s.model_instances.length := (List.getElem?_eq_some.mp hid).1
    obtain ⟨e, he1, he2, he3, he4⟩ := hall i d hid
    refine ⟨e, he1, ?_, ?_, he4⟩
    · rw [he2]
      exact tlas_matrix_row_major d.rotation d.translation
        (hunit d (by
          rcases List.getElem?_eq_some.mp hid with ⟨hbnd, hval⟩
          rw [← hval]
          exact List.getElem_mem hbnd))
    · rw [he3]
      simp only [packed24_8]
      omega

/-- Witness for C6: one live instance (identity rotation, translation
`(1,2,3)`, model 0) and one BLAS at address 42. -/
theorem ray_trace_record_builds_tlas_witness :
    ∃ entries s',
      rayTraceRecord
        { frame_idx := 0, model_blas := [42],
          model_instances :=
            [{ materials := [⟨0⟩], model := ⟨0, 0⟩,
               rotation := ⟨0, 0, 0, 1⟩, translation := ⟨1, 2, 3⟩ }] } =
        some (entries, s') ∧
      entries.length = 1 ∧
      ∀ (i : Nat) (d : ModelInstanceData),
        ([{ materials := [⟨0⟩], model := ⟨0, 0⟩, rotation := ⟨0, 0, 0, 1⟩,
            translation := ⟨1, 2, 3⟩ }] :
          List ModelInstanceData)[i]? = some d →
        ∃ e, entries[i]? = some e ∧
          e.transform = row_major_3x4 d.rotation d.translation ∧
          e.instance_custom_index_and_mask % 2 ^ 24 = i ∧
          ([42] : List Nat)[d.model.model_idx]? = some e.blas_address := by
  have hrec : rayTraceRecord
      { frame_idx := 0, model_blas := [42],
        model_instances :=
          [{ materials := [⟨0⟩], model := ⟨0, 0⟩,
             rotation := ⟨0, 0, 0, 1⟩, translation := ⟨1, 2, 3⟩ }] } =
      some ([{ transform := [1, 0, 0, 1, 0, 1, 0, 2, 0, 0, 1, 3],
               instance_custom_index_and_mask := 4278190080,
               sbt_offset_and_flags := 67108864, blas_address := 42 }],
        { frame_idx := 1, model_blas := [42],
          model_instances :=
            [{ materials := [⟨0⟩], model := ⟨0, 0⟩,
               rotation := ⟨0, 0, 0, 1⟩, translation := ⟨1, 2, 3⟩ }] }) := by
    norm_num [rayTraceRecord, build_tlas, build_tlas_entries, tlas_matrix,
      transpose_cols, mat4_from_rotation_translation_cols, packed24_8]
  refine ⟨_, _, hrec, ?_, ?_⟩
  · exact (ray_trace_record_builds_tlas _ _ _ hrec
      (by
        intro d hd
        rw [List.mem_singleton] at hd
        subst hd
        norm_num [unit_quat])
      (by norm_num)).1
  · exact (ray_trace_record_builds_tlas _ _ _ hrec
      (by
        intro d hd
        rw [List.mem_singleton] at hd
        subst hd
        norm_num [unit_quat])
      (by norm_num)).2

/-! ## C7: the images `read_material` hands to `load_material` -/

/-- C7 (code bug): `read_material` returns the decoded bitmap of the COLOR
id for all three of the color, normal and params images (loader.rs:540-542
index `images` by `info.color` three times), so `ModelBuffer::load_material`
stores the color bitmap as the normal and params textures too.  With the
injective decode map `n ↦ 100 + n` and a material with distinct ids
`(color, normal, params, emissive) = (0, 1, 2, 3)`, the claim expects
`(100, 101, 102, some 103)` but the code produces `(100, 100, 100, some
103)` (only the emissive id is honoured). -/
theorem read_material_passes_color_for_normal_and_params :
    read_material (fun n => 100 + n) ⟨0, 1, 2, some 3⟩ =
      some (100, 100, 100, some 103) ∧ (100 : Nat) ≠ 101 := by
  constructor
  · rfl
  · omega

/-! ## C8: lock ordering and deadlock freedom of concurrent material loads -/
theorem mem_insertSortedNodup (a c : Nat) (l : List Nat) :
    c ∈ insertSortedNodup a l ↔ c = a ∨ c ∈ l := by
  induction l with
  | nil => simp [insertSortedNodup]
  | cons b t ih =>
    by_cases h1 : a < b
    · simp [insertSortedNodup, h1]
      try tauto
    · by_cases h2 : a = b
      · subst h2
        simp [insertSortedNodup, h1]
        try tauto
      · simp [insertSortedNodup, h1, h2, ih]
        try tauto

theorem insertSortedNodup_sorted (a : Nat) (l : List Nat)
    (h : l.Sorted (· < ·)) : (insertSortedNodup a l).Sorted (· < ·) := by
  induction l with
  | nil => simp [insertSortedNodup]
  | cons b t ih =>
    rw [List.sorted_cons] at h
    obtain ⟨hb, ht⟩ := h
    by_cases h1 : a < b
    · rw [insertSortedNodup, if_pos h1, List.sorted_cons]
      refine ⟨?_, ?_⟩
      · intro c hc
        rcases List.mem_cons.mp hc with hc | hc
        · subst hc
          exact h1
        · exact lt_trans h1 (hb c hc)
      · rw [List.sorted_cons]
        exact ⟨hb, ht⟩
    · by_cases h2 : a = b
      · rw [insertSortedNodup, if_neg h1, if_pos h2, List.sorted_cons]
        exact ⟨hb, ht⟩
      · rw [insertSortedNodup, if_neg h1, if_neg h2, List.sorted_cons]
        refine ⟨?_, ih ht⟩
        intro c hc
        rcases (mem_insertSortedNodup a c t).mp hc with hc | hc
        · subst hc
          omega
        · exact hb c hc

theorem material_bitmap_ids_sorted (info : MaterialInfo) :
    (material_bitmap_ids info).Sorted (· < ·) := by
  rw [material_bitmap_ids]
  generalize ([info.color, info.normal, info.params] ++ info.emissive.toList) = l
  induction l with
  | nil => simp
  | cons a t ih => exact insertSortedNodup_sorted a _ ih

theorem lock_progress (s : LockSystem) (hnd : ¬ LockDone s) :
    ∃ s', LockStep s s' := by
  obtain ⟨⟨p1, h1⟩, ⟨p2, h2⟩⟩ := s
  rcases h1 with _ | id1
  · rcases h2 with _ | id2
    · rcases p1 with _ | ⟨a1, r1⟩
      · rcases p2 with _ | ⟨a2, r2⟩
        · exact absurd ⟨rfl, rfl, rfl, rfl⟩ hnd
        · exact ⟨_, LockStep.acq2 a2 r2 ⟨[], none⟩ (by simp)⟩
      · exact ⟨_, LockStep.acq1 a1 r1 ⟨p2, none⟩ (by simp)⟩
    · exact ⟨_, LockStep.rel2 p2 id2 ⟨p1, none⟩⟩
  · exact ⟨_, LockStep.rel1 p1 id1 ⟨p2, h2⟩⟩

/-- C8: for any two materials loaded concurrently — in particular one whose
bitmap set is `{A, B}` and one whose set is `{B, A}` — each worker acquires
the per-bitmap cache locks in strictly ascending bitmap-id order (the ids
are deduplicated and sorted before any per-bitmap lock is taken,
loader.rs:512-524), and under every interleaving of the two workers the
system can always make progress: no reachable state is deadlocked. -/
theorem read_material_lock_order_deadlock_free (m1 m2 : MaterialInfo) :
    (material_bitmap_ids m1).Sorted (· < ·) ∧
    (material_bitmap_ids m2).Sorted (· < ·) ∧
    ∀ s : LockSystem,
      Relation.ReflTransGen LockStep
        ⟨⟨material_bitmap_ids m1, none⟩, ⟨material_bitmap_ids m2, none⟩⟩ s →
      ¬ LockDone s → ∃ s', LockStep s s' :=
  ⟨material_bitmap_ids_sorted m1, material_bitmap_ids_sorted m2,
    fun s _ hnd => lock_progress s hnd⟩

/-- Witness for C8: the spec's scenario — one material referencing
`{A, B} = {10, 20}` and one referencing `{B, A} = {20, 10}` — from the
initial interleaving state the system is not done and can step. -/
theorem read_material_lock_order_deadlock_free_witness :
    ∃ s', LockStep
      ⟨⟨material_bitmap_ids ⟨10, 20, 10, none⟩, none⟩,
       ⟨material_bitmap_ids ⟨20, 10, 20, none⟩, none⟩⟩ s' :=
  (read_material_lock_order_deadlock_free ⟨10, 20, 10, none⟩
    ⟨20, 10, 20, none⟩).2.2 _ Relation.ReflTransGen.refl
    (by decide)

/-- C3: for every input of `N = S * k` 32-bit counts (`S` the device
subgroup size), the exclusive-sum primitive's output satisfies
`output[0] = 0`, the recurrence `output[i] = output[i-1] + input[i-1]`
for `0 < i`, and the closed form `output[i] = sum of input[0..i]`
(all sums in 32-bit arithmetic). -/
theorem exclusive_sum_offsets (input : Nat → Nat) (S k : Nat) (hS : 0 < S) :
    excl_sum_output input S 0 = 0 ∧
    (∀ i, 0 < i → i < S * k →
      excl_sum_output input S i =
        (excl_sum_output input S (i - 1) + input (i - 1)) % 2 ^ 32) ∧
    ∀ i, i < S * k →
      excl_sum_output input S i = (∑ j ∈ Finset.range i, input j) % 2 ^ 32 := by
  have closed : ∀ i, excl_sum_output input S i =
      (∑ j ∈ Finset.range i, input j) % 2 ^ 32 := by
    intro i
    rw [excl_sum_output, excl_sum_reduce, Nat.mod_add_mod]
    have hle : S * (i / S) ≤ i := by
      rw [Nat.mul_comm]
      exact Nat.div_mul_le_self i S
    rw [Finset.range_eq_Ico,
      Finset.sum_Ico_consecutive input (Nat.zero_le _) hle]
  refine ⟨?_, ?_, fun i _ => closed i⟩
  · rw [closed 0]
    rfl
  · intro i hi _
    obtain ⟨m, rfl⟩ : ∃ m, i = m + 1 := ⟨i - 1, by omega⟩
    simp only [Nat.add_sub_cancel]
    rw [closed (m + 1), closed m, Nat.mod_add_mod, Finset.sum_range_succ]

/-- Witness for C3: subgroup size 4, two groups, `input = id`; the theorem
gives `output[6] = 0 + 1 + 2 + 3 + 4 + 5 = 15`. -/
theorem exclusive_sum_offsets_witness :
    excl_sum_output (fun j => j) 4 6 = 15 := by
  have h := (exclusive_sum_offsets (fun j => j) 4 2 (by decide)).2.2 6 (by decide)
  rw [h]
  decide

theorem chunksOfAux_cons_step {α : Type} (fuel S : Nat) (a : α) (t : List α) :
    chunksOfAux (fuel + 1) S (a :: t) =
      (a :: t).take S :: chunksOfAux fuel S ((a :: t).drop S) := rfl

theorem chunksOfAux_join {α : Type} (fuel S : Nat) (l : List α) :
    (chunksOfAux fuel S l).join = l := by
  induction fuel generalizing l with
  | zero =>
    cases l with
    | nil => rfl
    | cons a t => simp [chunksOfAux]
  | succ fuel ih =>
    cases l with
    | nil => rfl
    | cons a t =>
      rw [chunksOfAux_cons_step]
      simp [ih, List.take_append_drop]

theorem chunksOf_join {α : Type} (S : Nat) (l : List α) :
    (chunksOf S l).join = l :=
  chunksOfAux_join l.length S l

theorem chunksOfAux_length_le {α : Type} (fuel S : Nat) (l : List α)
    (hS : 1 ≤ S) : (chunksOfAux fuel S l).length ≤ l.length := by
  induction fuel generalizing l with
  | zero =>
    cases l with
    | nil => simp [chunksOfAux]
    | cons a t => simp [chunksOfAux]
  | succ fuel ih =>
    cases l with
    | nil => simp [chunksOfAux]
    | cons a t =>
      rw [chunksOfAux_cons_step]
      have h := ih ((a :: t).drop S)
      simp only [List.length_cons, List.length_drop] at h ⊢
      omega

theorem chunksOf_length_le {α : Type} (S : Nat) (l : List α) (hS : 1 ≤ S) :
    (chunksOf S l).length ≤ l.length :=
  chunksOfAux_length_le l.length S l hS

theorem chunksOf_length_lt {α : Type} (S : Nat) (l : List α) (hS : 2 ≤ S)
    (hl : 2 ≤ l.length) : (chunksOf S l).length < l.length := by
  rcases l with _ | ⟨a, t⟩
  · simp at hl
  · have hstep : chunksOf S (a :: t) =
        (a :: t).take S :: chunksOfAux t.length S ((a :: t).drop S) := rfl
    rw [hstep, List.length_cons]
    have h := chunksOfAux_length_le t.length S ((a :: t).drop S) (by omega)
    simp only [List.length_cons, List.length_drop] at h hl ⊢
    omega

theorem vsum_append (a b : List Vec3) :
    vsum (a ++ b) = vadd (vsum a) (vsum b) := by
  induction a with
  | nil =>
    show vsum b = vadd ⟨0, 0, 0⟩ (vsum b)
    rcases vsum b with ⟨x, y, z⟩
    simp [vadd]
  | cons x t ih =>
    show vadd x (vsum (t ++ b)) = vadd (vadd x (vsum t)) (vsum b)
    rw [ih]
    rcases x with ⟨x1, x2, x3⟩
    rcases vsum t with ⟨t1, t2, t3⟩
    rcases vsum b with ⟨b1, b2, b3⟩
    simp only [vadd, Vec3.mk.injEq]
    refine ⟨by ring, by ring, by ring⟩

theorem vsum_map_vsum (L : List (List Vec3)) :
    vsum (L.map vsum) = vsum L.join := by
  induction L with
  | nil => rfl
  | cons a L ih =>
    show vadd (vsum a) (vsum (L.map vsum)) = vsum (a ++ L.join)
    rw [ih, vsum_append]

theorem vsum_reduceAvgLevel (S : Nat) (l : List Vec3) :
    vsum (reduceAvgLevel S l) = vsum l := by
  rw [reduceAvgLevel, vsum_map_vsum, chunksOf_join]

theorem reduceSumAux_eq_vsum (fuel S : Nat) (l : List Vec3) (hS : 2 ≤ S)
    (hfuel : l.length ≤ fuel + 1) : reduceSumAux fuel S l = vsum l := by
  induction fuel generalizing l with
  | zero =>
    match l with
    | [] => rfl
    | [v] =>
      show v = vadd v ⟨0, 0, 0⟩
      rcases v with ⟨x, y, z⟩
      simp [vadd]
    | a :: b :: t =>
      simp only [List.length_cons] at hfuel
      omega
  | succ fuel ih =>
    match l with
    | [] => rfl
    | [v] =>
      show v = vadd v ⟨0, 0, 0⟩
      rcases v with ⟨x, y, z⟩
      simp [vadd]
    | a :: b :: t =>
      have hstep : reduceSumAux (fuel + 1) S (a :: b :: t) =
          reduceSumAux fuel S (reduceAvgLevel S (a :: b :: t)) := rfl
      rw [hstep, ih _ ?_, vsum_reduceAvgLevel]
      have h := chunksOf_length_lt S (a :: b :: t) hS (by simp)
      rw [reduceAvgLevel, List.length_map]
      simp only [List.length_cons] at h hfuel ⊢
      omega

theorem maxList_nonneg (l : List ℚ) : 0 ≤ maxList l := by
  induction l with
  | nil => simp [maxList]
  | cons a t ih =>
    rw [maxList, List.foldr_cons]
    exact le_trans ih (le_max_right a _)

theorem maxList_append (a b : List ℚ) :
    maxList (a ++ b) = max (maxList a) (maxList b) := by
  induction a with
  | nil =>
    show maxList b = max (maxList []) (maxList b)
    have h0 : maxList ([] : List ℚ) = 0 := rfl
    rw [h0, max_comm, max_eq_left (maxList_nonneg b)]
  | cons x t ih =>
    show max x (maxList (t ++ b)) = max (max x (maxList t)) (maxList b)
    rw [ih, max_assoc]

theorem maxList_map_maxList (L : List (List ℚ)) :
    maxList (L.map maxList) = maxList L.join := by
  induction L with
  | nil => rfl
  | cons a L ih =>
    show max (maxList a) (maxList (L.map maxList)) = maxList (a ++ L.join)
    rw [ih, maxList_append]

theorem maxList_reduceMaxLevel (S : Nat) (l : List ℚ) :
    maxList (reduceMaxLevel S l) = maxList l := by
  rw [reduceMaxLevel, maxList_map_maxList, chunksOf_join]

theorem reduceMaxAux_eq_maxList (fuel S : Nat) (l : List ℚ) (hS : 2 ≤ S)
    (hfuel : l.length ≤ fuel + 1) (hpos : ∀ d ∈ l, 0 ≤ d) :
    reduceMaxAux fuel S l = maxList l := by
  induction fuel generalizing l with
  | zero =>
    match l with
    | [] => rfl
    | [d] =>
      show d = max d 0
      rw [max_eq_left (hpos d (by simp))]
    | a :: b :: t =>
      simp only [List.length_cons] at hfuel
      omega
  | succ fuel ih =>
    match l with
    | [] => rfl
    | [d] =>
      show d = max d 0
      rw [max_eq_left (hpos d (by simp))]
    | a :: b :: t =>
      have hstep : reduceMaxAux (fuel + 1) S (a :: b :: t) =
          reduceMaxAux fuel S (reduceMaxLevel S (a :: b :: t)) := rfl
      rw [hstep, ih _ ?_ ?_, maxList_reduceMaxLevel]
      · have h := chunksOf_length_lt S (a :: b :: t) hS (by simp)
        rw [reduceMaxLevel, List.length_map]
        simp only [List.length_cons] at h hfuel ⊢
        omega
      · intro d hd
        rw [reduceMaxLevel] at hd
        rcases List.mem_map.mp hd with ⟨c, _, rfl⟩
        exact maxList_nonneg c

theorem dist_sq_nonneg (c v : Vec3) : 0 ≤ dist_sq c v := by
  rw [dist_sq]
  positivity

theorem maxList_is_max (l : List ℚ) (hpos : ∀ d ∈ l, 0 ≤ d) (hne : l ≠ []) :
    (∀ d ∈ l, d ≤ maxList l) ∧ maxList l ∈ l := by
  induction l with
  | nil => exact absurd rfl hne
  | cons a t ih =>
    have hstep : maxList (a :: t) = max a (maxList t) := rfl
    rcases t with _ | ⟨b, t⟩
    · refine ⟨?_, ?_⟩
      · intro d hd
        rcases List.mem_singleton.mp hd with rfl
        rw [hstep]
        exact le_max_left _ _
      · rw [hstep]
        have h0 : maxList ([] : List ℚ) = 0 := rfl
        rw [h0, max_eq_left (hpos a (by simp))]
        simp
    · obtain ⟨iha, ihb⟩ := ih (fun d hd => hpos d (by simp [hd])) (by simp)
      refine ⟨?_, ?_⟩
      · intro d hd
        rw [hstep]
        rcases List.mem_cons.mp hd with rfl | hd
        · exact le_max_left _ _
        · exact le_trans (iha d hd) (le_max_right _ _)
      · rw [hstep]
        rcases max_choice a (maxList (b :: t)) with h | h
        · rw [h]
          simp
        · rw [h]
          simp only [List.mem_cons] at ihb ⊢
          tauto

theorem bounding_radius_written_eq (S : Nat) (verts : List Vec3)
    (hS : 2 ≤ S) :
    bounding_radius_written S verts =
      maxList (verts.map (dist_sq (bounding_center S verts))) := by
  have hpos : ∀ d ∈ (chunksOf S (verts.map (dist_sq (bounding_center S
      verts)))).map maxList, 0 ≤ d := by
    intro d hd
    rcases List.mem_map.mp hd with ⟨c, _, rfl⟩
    exact maxList_nonneg c
  have hfuel : ((chunksOf S (verts.map (dist_sq (bounding_center S
      verts)))).map maxList).length ≤ verts.length + 1 := by
    rw [List.length_map]
    have h := chunksOf_length_le S
      (verts.map (dist_sq (bounding_center S verts))) (by omega)
    rw [List.length_map] at h
    omega
  rw [bounding_radius_written, reduceMaxAux_eq_maxList _ _ _ hS hfuel hpos,
    maxList_map_maxList, chunksOf_join]

/-- Counterexample for C4, the spec's own two-vertex scenario (the repo
test `bounding_sphere3` asserts radius 4.0 for it): for vertices
`(2,1,-1)` and `(6,1,-1)` the computed center is `(4,1,-1)`, both
vertices lie at Euclidean distance 2 from it (`2 * 2` is each vertex's
squared distance), yet the fourth float written is `4` — the maximum
squared distance, not the maximum distance `2`. -/
theorem bounding_sphere_radius_counterexample :
    bounding_center 4 [⟨2, 1, -1⟩, ⟨6, 1, -1⟩] = ⟨4, 1, -1⟩ ∧
    bounding_radius_written 4 [⟨2, 1, -1⟩, ⟨6, 1, -1⟩] = 4 ∧
    dist_sq ⟨4, 1, -1⟩ ⟨2, 1, -1⟩ = 2 * 2 ∧
    dist_sq ⟨4, 1, -1⟩ ⟨6, 1, -1⟩ = 2 * 2 ∧
    (0 : ℚ) ≤ 2 ∧ (4 : ℚ) ≠ 2 := by
  refine ⟨?_, ?_, by norm_num [dist_sq], by norm_num [dist_sq],
    by norm_num, by norm_num⟩
  · norm_num [bounding_center, bounding_total, reduceSumAux, chunksOf,
      chunksOfAux, vsum, vadd, Vec3.mk.injEq]
  · norm_num [bounding_radius_written, bounding_center, bounding_total,
      reduceSumAux, reduceMaxAux, chunksOf, chunksOfAux, vsum, vadd,
      dist_sq, maxList, Vec3.mk.injEq]

/-- C4 (amended): for every non-empty vertex run and subgroup size at
least 2, the fourth float written at the destination offset equals the
maximum SQUARED Euclidean distance from the computed center to any vertex
of the run — every vertex's squared distance is bounded by the written
value, and some vertex attains it. -/
theorem bounding_sphere_radius_is_max_dist_sq (S : Nat) (verts : List Vec3)
    (hS : 2 ≤ S) (hne : verts ≠ []) :
    (∀ v ∈ verts,
      dist_sq (bounding_center S verts) v ≤ bounding_radius_written S verts) ∧
    ∃ v ∈ verts,
      bounding_radius_written S verts = dist_sq (bounding_center S verts) v := by
  rw [bounding_radius_written_eq S verts hS]
  have hpos : ∀ d ∈ verts.map (dist_sq (bounding_center S verts)), 0 ≤ d := by
    intro d hd
    rcases List.mem_map.mp hd with ⟨v, _, rfl⟩
    exact dist_sq_nonneg _ _
  obtain ⟨hub, hmem⟩ := maxList_is_max _ hpos (by simpa using hne)
  refine ⟨fun v hv => hub _ (List.mem_map_of_mem _ hv), ?_⟩
  rcases List.mem_map.mp hmem with ⟨v, hv, heq⟩
  exact ⟨v, hv, heq.symm⟩

/-- Witness for the amended C4 at the spec's two-vertex scenario: every
squared distance is bounded by the written radius and some vertex attains
it. -/
theorem bounding_sphere_radius_is_max_dist_sq_witness :
    (∀ v ∈ [Vec3.mk 2 1 (-1), Vec3.mk 6 1 (-1)],
      dist_sq (bounding_center 4 [⟨2, 1, -1⟩, ⟨6, 1, -1⟩]) v ≤
        bounding_radius_written 4 [⟨2, 1, -1⟩, ⟨6, 1, -1⟩]) ∧
    ∃ v ∈ [Vec3.mk 2 1 (-1), Vec3.mk 6 1 (-1)],
      bounding_radius_written 4 [⟨2, 1, -1⟩, ⟨6, 1, -1⟩] =
        dist_sq (bounding_center 4 [⟨2, 1, -1⟩, ⟨6, 1, -1⟩]) v :=
  bounding_sphere_radius_is_max_dist_sq 4 [⟨2, 1, -1⟩, ⟨6, 1, -1⟩]
    (by norm_num) (by simp)

end Mood
